import Mathlib

/-!
Verification of the natural-language specification of OGDF's
`SpringEmbedderFRExact` (file `src/ogdf/energybased/SpringEmbedderFRExact.cpp`)
against a shallow embedding of that code.

Conventions of the embedding:
* C++ `double` arithmetic is modelled by exact rational arithmetic (`ℚ`).
  The C library function `sqrt` is passed in as an explicit parameter
  `rsqrt : ℚ → ℚ`; theorems that need analytic facts about the square root
  take them as hypotheses about `rsqrt` at the points where the code applies
  it, and concrete instantiations use `Rat.sqrt` (exact on perfect squares).
* Arrays indexed by `int` are modelled as functions `ℕ → ℚ`; the code only
  ever reads and writes indices `< n`, and the embedding leaves all other
  indices untouched.
* The OpenMP parallel loops of the code have sequential semantics (each
  `disp[v]` resp. `position[v]` is written by exactly one index `v` of the
  parallel-for), so they are embedded as ordinary folds/maps.
* External collaborators (connected-component partition, the packer
  `TileToRowsCCPacker`, the CPU-feature probe) are parameters of the
  embedding, exactly as they are interface boundaries in the spec.
-/

namespace SpringFR

/-- Cooling policy selector (`SpringEmbedderFRExact::CoolingFunction`). -/
inductive CoolingFunction where
  | Factor
  | Logarithmic
deriving DecidableEq

/-- The configuration surface of `SpringEmbedderFRExact` (the `m_...` option
fields set in the constructor and read during `call`). -/
structure Config where
  iterations : ℕ
  coolingFunction : CoolingFunction
  coolFactor_x : ℚ
  coolFactor_y : ℚ
  idealEdgeLength : ℚ
  minDistCC : ℚ
  pageRatio : ℚ
  useNodeWeight : Bool
  checkConvergence : Bool
  convTolerance : ℚ

/-- Flat structure-of-arrays view of one connected component
(`SpringEmbedderFRExact::ArrayGraph` after `initCC`): `n` nodes with
positions `x v, y v`, repulsion weights `nodeWeight v` (indices `v < n`),
and the compact edge list `edges` (the `m_src`/`m_tgt` pairs). -/
@[ext]
structure ArrayCC where
  n : ℕ
  x : ℕ → ℚ
  y : ℕ → ℚ
  nodeWeight : ℕ → ℚ
  edges : List (ℕ × ℕ)

/-- `minDist = 10e-6` from `mainStep` / `mainStep_sse3`. -/
def minDistQ : ℚ := 10 / 1000000

/-- `minDistSquare = minDist * minDist`. -/
def minDistSquareQ : ℚ := minDistQ * minDistQ

/-- `c_rep = 0.052 * kSquare` (the repulsion coefficient; `0.052` exactly). -/
def cRep (k : ℚ) : ℚ := (52 / 1000) * (k * k)

/-- The clamped squared distance `max(minDistSquare, dx*dx + dy*dy)` that is
the divisor of the repulsive pass. -/
def repDistSq (dx dy : ℚ) : ℚ := max minDistSquareQ (dx * dx + dy * dy)

/-- One summand of the repulsive inner loop, x-component:
`delta_x * (nodeWeight[u] / distSquare)`. -/
def repTermX (C : ArrayCC) (v u : ℕ) : ℚ :=
  (C.x v - C.x u) * (C.nodeWeight u / repDistSq (C.x v - C.x u) (C.y v - C.y u))

/-- One summand of the repulsive inner loop, y-component. -/
def repTermY (C : ArrayCC) (v u : ℕ) : ℚ :=
  (C.y v - C.y u) * (C.nodeWeight u / repDistSq (C.x v - C.x u) (C.y v - C.y u))

/-- The repulsive pass of the scalar `mainStep` for one node `v`: accumulate
over all `u ≠ v` (skipping `u == v` as the code does), then scale by `c_rep`. -/
def repulsiveDisp (C : ArrayCC) (k : ℚ) (v : ℕ) : ℚ × ℚ :=
  let s := (List.range C.n).foldl
    (fun acc u => if u = v then acc else (acc.1 + repTermX C v u, acc.2 + repTermY C v u))
    (0, 0)
  (s.1 * cRep k, s.2 * cRep k)

/-- The attractive pass: fold over the edge array, updating `disp` at both
endpoints (`disp[v] -= delta*dist/k`, `disp[u] += delta*dist/k`), with
`dist = max(minDist, sqrt(delta_x² + delta_y²))`. Identical source text in
`mainStep` and `mainStep_sse3`. -/
def attrPass (rsqrt : ℚ → ℚ) (k : ℚ) (C : ArrayCC) (disp : ℕ → ℚ × ℚ) : ℕ → ℚ × ℚ :=
  C.edges.foldl (fun d e =>
    let v := e.1
    let u := e.2
    let dx := C.x v - C.x u
    let dy := C.y v - C.y u
    let dist := max minDistQ (rsqrt (dx * dx + dy * dy))
    let d1 := Function.update d v ((d v).1 - dx * dist / k, (d v).2 - dy * dist / k)
    Function.update d1 u ((d1 u).1 + dx * dist / k, (d1 u).2 + dy * dist / k)) disp

/-- The clamped displacement norm `dist = max(minDist, sqrt(disp·disp))`
that is the divisor of the capping pass. -/
def capDist (rsqrt : ℚ → ℚ) (d : ℚ × ℚ) : ℚ :=
  max minDistQ (rsqrt (d.1 * d.1 + d.2 * d.2))

/-- The capping pass for one node: `disp/dist * min(dist, temperature)`
per axis. -/
def capDisp (rsqrt : ℚ → ℚ) (tx ty : ℚ) (d : ℚ × ℚ) : ℚ × ℚ :=
  (d.1 / capDist rsqrt d * min (capDist rsqrt d) tx,
   d.2 / capDist rsqrt d * min (capDist rsqrt d) ty)

/-- The loop body of the scalar `mainStep`: repulsive pass, attractive pass,
capping-and-apply pass.  Returns the updated component together with the
convergence flag of this iteration (`true` iff no node's capped squared
displacement exceeded `(convTolerance * idealEdgeLength)²`, i.e. the value
`converged` would have at the bottom of the loop body when
`m_checkConvergence` started it at `true`). -/
def oneStep (cfg : Config) (rsqrt : ℚ → ℚ) (C : ArrayCC) (tx ty : ℚ) : ArrayCC × Bool :=
  let k := cfg.idealEdgeLength
  let disp : ℕ → ℚ × ℚ := attrPass rsqrt k C (fun v => repulsiveDisp C k v)
  let thr := cfg.convTolerance * k
  let allBelow := (List.range C.n).all fun v =>
    let dd := capDisp rsqrt tx ty (disp v)
    decide (dd.1 * dd.1 + dd.2 * dd.2 ≤ thr * thr)
  ({ C with
      x := fun v => if v < C.n then C.x v + (capDisp rsqrt tx ty (disp v)).1 else C.x v,
      y := fun v => if v < C.n then C.y v + (capDisp rsqrt tx ty (disp v)).2 else C.y v },
   allBelow)

/-- Modelled from the spec: `mylog2` is declared in the header
`SpringEmbedderFRExact.h`, which is not among the sources; §4.3 of the spec
pins it down as a base-2 logarithm of the integer counter with value `0` at
`cF = 1` and nonzero from `cF = 2` on, so it is embedded as the integral
base-2 logarithm. -/
def mylog2 (c : ℕ) : ℚ := (Nat.log 2 c : ℚ)

/-- `SpringEmbedderFRExact::cool`: Factor mode multiplies both temperatures
by the configured factors; Logarithmic mode resets them to
`txNull / mylog2 cF` when `mylog2 cF ≠ 0` and always increments `cF`. -/
def cool (cfg : Config) (txNull tyNull : ℚ) (tx ty : ℚ) (cF : ℕ) : ℚ × ℚ × ℕ :=
  match cfg.coolingFunction with
  | CoolingFunction.Factor => (tx * cfg.coolFactor_x, ty * cfg.coolFactor_y, cF)
  | CoolingFunction.Logarithmic =>
      if mylog2 cF ≠ 0 then (txNull / mylog2 cF, tyNull / mylog2 cF, cF + 1)
      else (tx, ty, cF + 1)

/-- The `while (!converged)` loop of the scalar `mainStep`.  The first
argument is the remaining iteration budget (`m_iterations - (itCount - 1)`);
the loop body runs, the scheduler cools, and the loop exits early exactly
when `m_checkConvergence` is set and every node stayed below the threshold.
Returns the final component and the number of loop-body executions. -/
def mainLoop (cfg : Config) (rsqrt : ℚ → ℚ) (txNull tyNull : ℚ) :
    ℕ → ArrayCC → ℚ → ℚ → ℕ → ArrayCC × ℕ
  | 0, C, _, _, _ => (C, 0)
  | r + 1, C, tx, ty, cF =>
      let step := oneStep cfg rsqrt C tx ty
      let cooled := cool cfg txNull tyNull tx ty cF
      if cfg.checkConvergence && step.2 then (step.1, 1)
      else
        let rest := mainLoop cfg rsqrt txNull tyNull r step.1 cooled.1 cooled.2.1 cooled.2.2
        (rest.1, rest.2 + 1)

/-- `SpringEmbedderFRExact::mainStep` (scalar path): run the loop with the
full budget, temperatures started at `m_txNull`/`m_tyNull` and `cF = 1`.
Also returns the number of iterations executed. -/
def mainStep (cfg : Config) (rsqrt : ℚ → ℚ) (txNull tyNull : ℚ) (C : ArrayCC) : ArrayCC × ℕ :=
  mainLoop cfg rsqrt txNull tyNull cfg.iterations C txNull tyNull 1

/-- The strided pair loop of the SSE3 repulsive pass:
`for (u = ...; u + 1 < bound; u += 2) { contribute f u; contribute f (u+1); }`.
Embedded with an explicit fuel argument (structural recursion); fuel `≥`
the number of executed iterations leaves the semantics of the C loop, which
`pairLoop_spec` below characterises.  Returns the accumulated sum and the
final value of `u`. -/
def pairLoop (f : ℕ → ℚ) (bound : ℕ) : ℕ → ℕ → ℚ × ℕ
  | 0, u => (0, u)
  | fuel + 1, u =>
      if u + 1 < bound then
        let r := pairLoop f bound fuel (u + 2)
        (f u + f (u + 1) + r.1, r.2)
      else (0, u)

/-- The repulsive inner loop of `mainStep_sse3` for node `v`, summing the
per-lane contributions `f u` in the code's order: a packed loop below `v`,
one single lane (`u+1` when the packed loop stopped at `v`, else the stop
index), a packed loop from `uStart = u + 2` to `n`, and a final single lane
if one index remains. -/
def sseRepRaw (f : ℕ → ℚ) (n v : ℕ) : ℚ :=
  let p1 := pairLoop f v v 0
  let uStart := p1.2 + 2
  let u2 := if p1.2 = v then p1.2 + 1 else p1.2
  let s1 := if u2 < n then f u2 else 0
  let p2 := pairLoop f n n uStart
  let s2 := if p2.2 < n then f p2.2 else 0
  p1.1 + s1 + p2.1 + s2

/-- The repulsive pass of `mainStep_sse3` for one node `v` (per-lane
arithmetic as in the code, horizontally added, then scaled by `c_rep`). -/
def sseRepDisp (C : ArrayCC) (k : ℚ) (v : ℕ) : ℚ × ℚ :=
  (sseRepRaw (fun u => repTermX C v u) C.n v * cRep k,
   sseRepRaw (fun u => repTermY C v u) C.n v * cRep k)

/-- The loop body of `mainStep_sse3` (one `i`-iteration): SSE3 repulsive
pass, the (textually identical) attractive pass, and the capping pass.
The SSE3 body performs no convergence bookkeeping. -/
def sseOneStep (cfg : Config) (rsqrt : ℚ → ℚ) (C : ArrayCC) (tx ty : ℚ) : ArrayCC :=
  let k := cfg.idealEdgeLength
  let disp : ℕ → ℚ × ℚ := attrPass rsqrt k C (fun v => sseRepDisp C k v)
  { C with
      x := fun v => if v < C.n then C.x v + (capDisp rsqrt tx ty (disp v)).1 else C.x v,
      y := fun v => if v < C.n then C.y v + (capDisp rsqrt tx ty (disp v)).2 else C.y v }

/-- The `for (int i = 1; i <= m_iterations; i++)` loop of `mainStep_sse3`:
no early exit of any kind.  Returns the final component and the number of
loop-body executions. -/
def sseLoop (cfg : Config) (rsqrt : ℚ → ℚ) (txNull tyNull : ℚ) :
    ℕ → ArrayCC → ℚ → ℚ → ℕ → ArrayCC × ℕ
  | 0, C, _, _, _ => (C, 0)
  | r + 1, C, tx, ty, cF =>
      let C' := sseOneStep cfg rsqrt C tx ty
      let cooled := cool cfg txNull tyNull tx ty cF
      let rest := sseLoop cfg rsqrt txNull tyNull r C' cooled.1 cooled.2.1 cooled.2.2
      (rest.1, rest.2 + 1)

/-- `SpringEmbedderFRExact::mainStep_sse3` with `OGDF_SSE3_EXTENSIONS`
enabled (the vectorized path; without that build flag the function falls
back to the scalar `mainStep`). -/
def mainStep_sse3 (cfg : Config) (rsqrt : ℚ → ℚ) (txNull tyNull : ℚ) (C : ArrayCC) :
    ArrayCC × ℕ :=
  sseLoop cfg rsqrt txNull tyNull cfg.iterations C txNull tyNull 1

/-- The bounding-box minimum loop of the layout initializer:
`xmin = m_x[0]; for (v = 0; v < n; ++v) Math::updateMin(xmin, m_x[v]);`. -/
def foldMin (g : ℕ → ℚ) (n : ℕ) : ℚ :=
  (List.range n).foldl (fun m v => min m (g v)) (g 0)

/-- The bounding-box maximum loop of the layout initializer. -/
def foldMax (g : ℕ → ℚ) (n : ℕ) : ℚ :=
  (List.range n).foldl (fun m v => max m (g v)) (g 0)

/-- `SpringEmbedderFRExact::initialize` (the Layout Initializer): rescale the
component into a box of area about `n·k²` preserving the aspect ratio of the
padded bounding box, and return the component together with the initial
temperatures `m_txNull = W/8` and `m_tyNull = H/8`. -/
def initLayout (rsqrt : ℚ → ℚ) (k : ℚ) (C : ArrayCC) : ArrayCC × ℚ × ℚ :=
  let xmin := foldMin C.x C.n
  let xmax := foldMax C.x C.n
  let ymin := foldMin C.y C.n
  let ymax := foldMax C.y C.n
  let w := xmax - xmin + k
  let h := ymax - ymin + k
  let ratio := h / w
  let W := rsqrt ((C.n : ℚ) / ratio) * k
  let H := ratio * W
  let fx := W / w
  let fy := H / h
  ({ C with
      x := fun v => if v < C.n then (C.x v - xmin) * fx else C.x v,
      y := fun v => if v < C.n then (C.y v - ymin) * fy else C.y v },
   W / 8, H / 8)

/-- The per-component branch of `SpringEmbedderFRExact::call` (lines 187-195):
only components with at least 2 nodes run the Layout Initializer and the
Force Computation Engine (vectorized path when the CPU probe reports SSE3);
smaller components are left untouched. -/
def processCC (cfg : Config) (rsqrt : ℚ → ℚ) (haveSSE3 : Bool) (C : ArrayCC) : ArrayCC :=
  if 2 ≤ C.n then
    let r := initLayout rsqrt cfg.idealEdgeLength C
    if haveSSE3 then (mainStep_sse3 cfg rsqrt r.2.1 r.2.2 r.1).1
    else (mainStep cfg rsqrt r.2.1 r.2.2 r.1).1
  else C

/-- The adjacency entries of node `v` induced by the edge list `es` of the
component: each edge `(a, b)` contributes one entry with twin `b` at `a` and
one entry with twin `a` at `b` (a self-loop contributes two entries at its
node), mirroring OGDF's `adjEntries`/`twinNode`. -/
def adjOf (es : List (ℕ × ℕ)) (v : ℕ) : List ℕ :=
  es.foldr (fun e acc =>
    (if e.1 = v then [e.2] else []) ++ ((if e.2 = v then [e.1] else []) ++ acc)) []

/-- The compact index assigned by the first loop of `ArrayGraph::initCC`
(`m_mapNode[v] = j` in visiting order): position of the first occurrence. -/
def mapNodeOf : List ℕ → ℕ → ℕ
  | [], _ => 0
  | v :: rest, w => if v = w then 0 else mapNodeOf rest w + 1

/-- `m_orig[j]`: the original node stored at compact index `j`. -/
def originalHandle : List ℕ → ℕ → ℕ
  | [], _ => 0
  | v :: _, 0 => v
  | _ :: rest, j + 1 => originalHandle rest j

/-- The second loop of `ArrayGraph::initCC`: walk the component's nodes with
a running `srcId`, and for every adjacency entry `w` of `v` with
`v->index() < w->index()` store the pair `(srcId, m_mapNode[w])`. -/
def edgesCCAux (es : List (ℕ × ℕ)) (mapN : ℕ → ℕ) : List ℕ → ℕ → List (ℕ × ℕ)
  | [], _ => []
  | v :: rest, srcId =>
      ((adjOf es v).filter (fun w => v < w)).map (fun w => (srcId, mapN w))
        ++ edgesCCAux es mapN rest (srcId + 1)

/-- The compact edge array built by `ArrayGraph::initCC` from the component's
node list `ns` (original indices, in visiting order) and edge list `es`. -/
def edgesCC (ns : List ℕ) (es : List (ℕ × ℕ)) : List (ℕ × ℕ) :=
  edgesCCAux es (mapNodeOf ns) ns 0

/-- The compact pair that `initCC` is expected to store for one undirected
edge: oriented from the endpoint with the smaller original index. -/
def expectedPair (ns : List ℕ) (e : ℕ × ℕ) : ℕ × ℕ :=
  if e.1 < e.2 then (mapNodeOf ns e.1, mapNodeOf ns e.2)
  else (mapNodeOf ns e.2, mapNodeOf ns e.1)

/-- The attribute store visible to `call` (`GraphAttributes`): `N` nodes with
ids `0..N-1`, per-node geometry and weight, and per-edge bend points. -/
structure GAttr where
  N : ℕ
  x : ℕ → ℚ
  y : ℕ → ℚ
  width : ℕ → ℚ
  height : ℕ → ℚ
  nodeWeight : ℕ → ℚ
  bends : ℕ → List (ℚ × ℚ)

/-- One connected component of the input graph, as delivered by the external
connected-components collaborator: its node ids in discovery order and its
edges (pairs of original node ids). -/
structure CCInput where
  ns : List ℕ
  es : List (ℕ × ℕ)

/-- `GraphAttributes::clearAllBends`: all edges become straight lines. -/
def clearAllBends (ga : GAttr) : GAttr :=
  { ga with bends := fun _ => [] }

/-- `ArrayGraph::initCC` for one component: copy coordinates and weights out
of the attribute store into the compact arrays and build the edge array
(`m_nodeWeight[j]` is `1.0` unless node-weighting is enabled). -/
def buildCC (useNodeWeight : Bool) (ga : GAttr) (cc : CCInput) : ArrayCC :=
  { n := cc.ns.length,
    x := fun j => ga.x (originalHandle cc.ns j),
    y := fun j => ga.y (originalHandle cc.ns j),
    nodeWeight := fun j => if useNodeWeight then ga.nodeWeight (originalHandle cc.ns j) else 1,
    edges := edgesCC cc.ns cc.es }

/-- The write-back block of `call` (lines 197-229): store the component's
coordinates in the attribute store, compute the half-width/half-height
expanded bounding box, move its minimum corner (padded by `minDistCC`) to
the origin, and report the bounding-box size. -/
def writeBackCC (minDistCC : ℚ) (ga : GAttr) (cc : CCInput) (C : ArrayCC) : GAttr × ℚ × ℚ :=
  let n := cc.ns.length
  let halfW := fun j => ga.width (originalHandle cc.ns j) / 2
  let halfH := fun j => ga.height (originalHandle cc.ns j) / 2
  let minX := (List.range n).foldl (fun m j => min m (C.x j - halfW j)) (C.x 0) - minDistCC
  let maxX := (List.range n).foldl (fun m j => max m (C.x j + halfW j)) (C.x 0)
  let minY := (List.range n).foldl (fun m j => min m (C.y j - halfH j)) (C.y 0) - minDistCC
  let maxY := (List.range n).foldl (fun m j => max m (C.y j + halfH j)) (C.y 0)
  ({ ga with
      x := fun v => if v ∈ cc.ns then C.x (mapNodeOf cc.ns v) - minX else ga.x v,
      y := fun v => if v ∈ cc.ns then C.y (mapNodeOf cc.ns v) - minY else ga.y v },
   maxX - minX, maxY - minY)

/-- One trip of `call`'s per-component loop: build the flat view, run the
conditional initializer/engine, write back, and record the bounding box. -/
def callStep (cfg : Config) (rsqrt : ℚ → ℚ) (haveSSE3 : Bool)
    (acc : GAttr × List (ℚ × ℚ)) (cc : CCInput) : GAttr × List (ℚ × ℚ) :=
  let C := buildCC cfg.useNodeWeight acc.1 cc
  let C' := processCC cfg rsqrt haveSSE3 C
  let r := writeBackCC cfg.minDistCC acc.1 cc C'
  (r.1, acc.2 ++ [(r.2.1, r.2.2)])

/-- The final loop of `call`: translate every node of component `i` by the
packer's offset for `i`. -/
def applyOffsets (ga : GAttr) (ccs : List CCInput) (offs : List (ℚ × ℚ)) : GAttr :=
  (ccs.zip offs).foldl (fun g p =>
    { g with
        x := fun v => if v ∈ p.1.ns then g.x v + p.2.1 else g.x v,
        y := fun v => if v ∈ p.1.ns then g.y v + p.2.2 else g.y v }) ga

/-- `SpringEmbedderFRExact::call`: a no-op on the empty graph; otherwise
clear all bends, process every connected component, hand the bounding boxes
and the page ratio to the external packer, and apply the returned offsets.
The component partition `ccs` and the packer are the external collaborators
of spec §6; the CPU probe result is the parameter `haveSSE3`. -/
def call (cfg : Config) (rsqrt : ℚ → ℚ) (haveSSE3 : Bool)
    (packer : List (ℚ × ℚ) → ℚ → List (ℚ × ℚ)) (ccs : List CCInput) (ga : GAttr) : GAttr :=
  if ga.N = 0 then ga
  else
    let res := ccs.foldl (callStep cfg rsqrt haveSSE3) (clearAllBends ga, [])
    let offs := packer res.2 cfg.pageRatio
    applyOffsets res.1 ccs offs

/-! ### General lemmas about the loops -/

/-- The SSE3 loop executes exactly its budget: it has no early exit. -/
theorem sseLoop_count (cfg : Config) (rsqrt : ℚ → ℚ) (txN tyN : ℚ) :
    ∀ (r : ℕ) (C : ArrayCC) (tx ty : ℚ) (cF : ℕ),
      (sseLoop cfg rsqrt txN tyN r C tx ty cF).2 = r := by
  intro r
  induction r with
  | zero => intro C tx ty cF; rfl
  | succ m ih =>
      intro C tx ty cF
      simp only [sseLoop]
      rw [ih]

/-- `mainStep_sse3` always performs exactly `iterations` loop iterations. -/
theorem mainStep_sse3_count (cfg : Config) (rsqrt : ℚ → ℚ) (txN tyN : ℚ) (C : ArrayCC) :
    (mainStep_sse3 cfg rsqrt txN tyN C).2 = cfg.iterations :=
  sseLoop_count cfg rsqrt txN tyN cfg.iterations C txN tyN 1

/-- Folding the repulsive accumulator over a list all of whose entries either
hit the `u == v` skip or contribute `0` leaves the accumulator unchanged. -/
theorem foldl_pair_skip (g1 g2 : ℕ → ℚ) (v : ℕ) :
    ∀ (l : List ℕ) (a b : ℚ),
      (∀ u ∈ l, u = v ∨ (g1 u = 0 ∧ g2 u = 0)) →
      l.foldl (fun acc u => if u = v then acc else (acc.1 + g1 u, acc.2 + g2 u)) (a, b) = (a, b) := by
  intro l
  induction l with
  | nil => intro a b _; rfl
  | cons u l ih =>
      intro a b h
      rcases h u (List.mem_cons_self u l) with hu | ⟨h1, h2⟩
      · simp only [List.foldl_cons, if_pos hu]
        exact ih a b fun w hw => h w (List.mem_cons_of_mem u hw)
      · by_cases huv : u = v
        · simp only [List.foldl_cons, if_pos huv]
          exact ih a b fun w hw => h w (List.mem_cons_of_mem u hw)
        · simp only [List.foldl_cons, if_neg huv, h1, h2, add_zero]
          exact ih a b fun w hw => h w (List.mem_cons_of_mem u hw)

/-- On a component whose nodes all sit at one point, the repulsive pass
yields the zero displacement for every node of the component. -/
theorem repulsiveDisp_coincident (C : ArrayCC) (k : ℚ) (v : ℕ) (hv : v < C.n)
    (hx : ∀ u, u < C.n → C.x u = C.x 0) (hy : ∀ u, u < C.n → C.y u = C.y 0) :
    repulsiveDisp C k v = (0, 0) := by
  unfold repulsiveDisp
  rw [foldl_pair_skip]
  · simp
  · intro u hu
    have hun : u < C.n := List.mem_range.mp hu
    right
    have hxvu : C.x v - C.x u = 0 := by rw [hx u hun, hx v hv]; ring
    have hyvu : C.y v - C.y u = 0 := by rw [hy u hun, hy v hv]; ring
    constructor
    · unfold repTermX; rw [hxvu]; ring
    · unfold repTermY; rw [hyvu]; ring

/-- The attractive pass is the identity when every edge connects coincident
endpoints (the zero delta contributes nothing to either endpoint). -/
theorem attrFold_coincident (rsqrt : ℚ → ℚ) (k : ℚ) (C : ArrayCC) :
    ∀ (es : List (ℕ × ℕ)) (d : ℕ → ℚ × ℚ),
      (∀ e ∈ es, C.x e.1 = C.x e.2 ∧ C.y e.1 = C.y e.2) →
      es.foldl (fun d e =>
        let v := e.1
        let u := e.2
        let dx := C.x v - C.x u
        let dy := C.y v - C.y u
        let dist := max minDistQ (rsqrt (dx * dx + dy * dy))
        let d1 := Function.update d v ((d v).1 - dx * dist / k, (d v).2 - dy * dist / k)
        Function.update d1 u ((d1 u).1 + dx * dist / k, (d1 u).2 + dy * dist / k)) d = d := by
  intro es
  induction es with
  | nil => intro d _; rfl
  | cons e es ih =>
      intro d h
      obtain ⟨hx, hy⟩ := h e (List.mem_cons_self e es)
      have hdx : C.x e.1 - C.x e.2 = 0 := by rw [hx]; ring
      have hdy : C.y e.1 - C.y e.2 = 0 := by rw [hy]; ring
      simp only [List.foldl_cons, hdx, hdy, zero_mul, zero_div, sub_zero, add_zero]
      rw [Function.update_eq_self, Function.update_eq_self]
      exact ih d fun e' he' => h e' (List.mem_cons_of_mem e he')

/-- `attrPass` on a component with only coincident edges is the identity. -/
theorem attrPass_coincident (rsqrt : ℚ → ℚ) (k : ℚ) (C : ArrayCC) (d : ℕ → ℚ × ℚ)
    (h : ∀ e ∈ C.edges, C.x e.1 = C.x e.2 ∧ C.y e.1 = C.y e.2) :
    attrPass rsqrt k C d = d :=
  attrFold_coincident rsqrt k C C.edges d h

/-- Capping the zero displacement gives the zero displacement. -/
theorem capDisp_zero (rsqrt : ℚ → ℚ) (tx ty : ℚ) :
    capDisp rsqrt tx ty (0, 0) = (0, 0) := by
  unfold capDisp
  simp

/-- On a fully coincident component (all nodes at one point, all edges inside
the component) the scalar loop body moves nothing and reports convergence. -/
theorem oneStep_coincident (cfg : Config) (rsqrt : ℚ → ℚ) (C : ArrayCC) (tx ty : ℚ)
    (hx : ∀ u, u < C.n → C.x u = C.x 0) (hy : ∀ u, u < C.n → C.y u = C.y 0)
    (he : ∀ e ∈ C.edges, e.1 < C.n ∧ e.2 < C.n) :
    oneStep cfg rsqrt C tx ty = (C, true) := by
  have hco : ∀ e ∈ C.edges, C.x e.1 = C.x e.2 ∧ C.y e.1 = C.y e.2 := by
    intro e hmem
    obtain ⟨h1, h2⟩ := he e hmem
    exact ⟨by rw [hx e.1 h1, hx e.2 h2], by rw [hy e.1 h1, hy e.2 h2]⟩
  unfold oneStep
  dsimp only
  rw [attrPass_coincident rsqrt cfg.idealEdgeLength C _ hco]
  have hdisp : ∀ v, v < C.n →
      capDisp rsqrt tx ty (repulsiveDisp C cfg.idealEdgeLength v) = (0, 0) := by
    intro v hv
    rw [repulsiveDisp_coincident C cfg.idealEdgeLength v hv hx hy, capDisp_zero]
  refine Prod.ext ?_ ?_
  · apply ArrayCC.ext <;> try rfl
    · funext v
      by_cases hv : v < C.n
      · simp only [if_pos hv, hdisp v hv, add_zero]
      · simp only [if_neg hv]
    · funext v
      by_cases hv : v < C.n
      · simp only [if_pos hv, hdisp v hv, add_zero]
      · simp only [if_neg hv]
  · simp only [List.all_eq_true]
    intro v hv
    have hvn : v < C.n := List.mem_range.mp hv
    rw [hdisp v hvn]
    have hsq : (0 : ℚ) ≤ (cfg.convTolerance * cfg.idealEdgeLength)
        * (cfg.convTolerance * cfg.idealEdgeLength) := mul_self_nonneg _
    simpa using hsq

/-- On a fully coincident component the whole scalar loop leaves the
component unchanged, whatever the budget, temperatures and counter. -/
theorem mainLoop_coincident (cfg : Config) (rsqrt : ℚ → ℚ) (txN tyN : ℚ) (C : ArrayCC)
    (hx : ∀ u, u < C.n → C.x u = C.x 0) (hy : ∀ u, u < C.n → C.y u = C.y 0)
    (he : ∀ e ∈ C.edges, e.1 < C.n ∧ e.2 < C.n) :
    ∀ (r : ℕ) (tx ty : ℚ) (cF : ℕ),
      (mainLoop cfg rsqrt txN tyN r C tx ty cF).1 = C := by
  intro r
  induction r with
  | zero => intro tx ty cF; rfl
  | succ m ih =>
      intro tx ty cF
      simp only [mainLoop, oneStep_coincident cfg rsqrt C tx ty hx hy he]
      by_cases hcc : cfg.checkConvergence
      · simp [hcc]
      · simp [hcc, ih]

/-! ### The SSE3 repulsive loop computes the same sums as the scalar loop -/

/-- Characterisation of `pairLoop` when given enough fuel: the final index
has the parity of the start index, the loop stopped because `u + 1 < bound`
failed, the final index does not overshoot `max u bound`, and the
accumulated value is the sum of `f` over the covered interval. -/
theorem pairLoop_spec (f : ℕ → ℚ) (bound : ℕ) :
    ∀ (fuel u : ℕ), bound ≤ u + 1 + 2 * fuel →
      u ≤ (pairLoop f bound fuel u).2 ∧
      bound ≤ (pairLoop f bound fuel u).2 + 1 ∧
      (pairLoop f bound fuel u).2 ≤ max u bound ∧
      (pairLoop f bound fuel u).1 = ∑ i in Finset.Ico u (pairLoop f bound fuel u).2, f i := by
  intro fuel
  induction fuel with
  | zero =>
      intro u h
      refine ⟨le_refl u, by simpa using h, le_max_left u bound, by simp [pairLoop]⟩
  | succ m ih =>
      intro u h
      by_cases hc : u + 1 < bound
      · obtain ⟨h1, h2, h3, h4⟩ := ih (u + 2) (by omega)
        simp only [pairLoop, if_pos hc]
        refine ⟨by omega, h2, ?_, ?_⟩
        · have hmax : max (u + 2) bound = bound := max_eq_right (by omega)
          rw [hmax] at h3
          exact le_trans h3 (le_max_right u bound)
        · rw [h4]
          rw [Finset.sum_eq_sum_Ico_succ_bot (show u < (pairLoop f bound m (u + 2)).2 by omega) f]
          rw [Finset.sum_eq_sum_Ico_succ_bot (show u + 1 < (pairLoop f bound m (u + 2)).2 by omega) f]
          ring
      · simp only [pairLoop, if_neg hc]
        exact ⟨le_refl u, by omega, le_max_left u bound, by simp⟩

/-- The tail of the SSE3 repulsive loop (packed pairs followed by a single
leftover lane) sums `f` over the whole interval `[s, n)`. -/
theorem pairTail (f : ℕ → ℚ) (n s : ℕ) :
    (pairLoop f n n s).1 + (if (pairLoop f n n s).2 < n then f (pairLoop f n n s).2 else 0)
      = ∑ i in Finset.Ico s n, f i := by
  obtain ⟨h1, h2, h3, h4⟩ := pairLoop_spec f n n s (by omega)
  by_cases hlt : (pairLoop f n n s).2 < n
  · rw [if_pos hlt, h4]
    have hen : (pairLoop f n n s).2 + 1 = n := by omega
    have := Finset.sum_Ico_succ_top (show s ≤ (pairLoop f n n s).2 from h1) f
    rw [hen] at this
    exact this.symm
  · rw [if_neg hlt, add_zero, h4]
    by_cases hs : s ≤ n
    · have hmax : max s n = n := max_eq_right hs
      rw [hmax] at h3
      have : (pairLoop f n n s).2 = n := by omega
      rw [this]
    · have hmax : max s n = s := max_eq_left (by omega)
      rw [hmax] at h3
      have hes : (pairLoop f n n s).2 = s := by omega
      rw [hes]
      rw [Finset.Ico_self, Finset.Ico_eq_empty (by omega)]

/-- Splitting the scalar repulsive sum at the skipped index `v`. -/
theorem rangeSplit (f : ℕ → ℚ) {n v : ℕ} (hv : v < n) :
    ∑ u in Finset.range n, (if u = v then 0 else f u)
      = (∑ i in Finset.Ico 0 v, f i) + ∑ i in Finset.Ico (v + 1) n, f i := by
  have h0 : ∀ s : Finset ℕ, v ∉ s →
      ∑ u in s, (if u = v then 0 else f u) = ∑ u in s, f u := by
    intro s hs
    exact Finset.sum_congr rfl fun u hu => if_neg (fun h : u = v => hs (h ▸ hu))
  rw [Finset.range_eq_Ico]
  rw [← Finset.sum_Ico_consecutive (fun u => if u = v then 0 else f u)
        (Nat.zero_le v) (le_of_lt hv)]
  rw [Finset.sum_eq_sum_Ico_succ_bot hv (fun u => if u = v then 0 else f u)]
  rw [h0 (Finset.Ico 0 v) (by simp), h0 (Finset.Ico (v + 1) n) (by simp)]
  simp

/-- The SSE3 repulsive loop for node `v` covers exactly the indices
`u ≠ v` below `n`: its four phases sum to the scalar repulsive sum. -/
theorem sseRepRaw_eq (f : ℕ → ℚ) {n v : ℕ} (hv : v < n) :
    sseRepRaw f n v = ∑ u in Finset.range n, (if u = v then 0 else f u) := by
  obtain ⟨h1, h2, h3, h4⟩ := pairLoop_spec f v v 0 (by omega)
  have h3' : (pairLoop f v v 0).2 ≤ v := by simpa using h3
  unfold sseRepRaw
  dsimp only
  rw [rangeSplit f hv]
  set e := (pairLoop f v v 0).2 with he
  by_cases hev : e = v
  · rw [hev] at h4 ⊢
    have hu2 : (if v = v then v + 1 else v) = v + 1 := if_pos rfl
    rw [hu2, h4]
    have htail := pairTail f n (v + 2)
    by_cases hv1 : v + 1 < n
    · rw [if_pos hv1]
      have hbot := Finset.sum_eq_sum_Ico_succ_bot hv1 f
      linarith
    · rw [if_neg hv1]
      have hico1 : Finset.Ico (v + 1) n = ∅ := Finset.Ico_eq_empty (by omega)
      have hico2 : Finset.Ico (v + 2) n = ∅ := Finset.Ico_eq_empty (by omega)
      rw [hico1]
      rw [hico2] at htail
      simp only [Finset.sum_empty] at htail ⊢
      linarith
  · have hvpos : e + 1 = v := by omega
    rw [if_neg hev, if_pos (show e < n by omega), h4]
    have hstart : e + 2 = v + 1 := by omega
    rw [hstart]
    have htail := pairTail f n (v + 1)
    have hhead := Finset.sum_Ico_succ_top (Nat.zero_le e) f
    rw [hvpos] at hhead
    linarith

/-- The scalar accumulator pair fold is the pair of range sums with the
`u == v` entries skipped. -/
theorem foldl_pair_sum (g1 g2 : ℕ → ℚ) (v : ℕ) :
    ∀ (n : ℕ) (a b : ℚ),
      (List.range n).foldl
          (fun acc u => if u = v then acc else (acc.1 + g1 u, acc.2 + g2 u)) (a, b)
        = (a + ∑ u in Finset.range n, (if u = v then 0 else g1 u),
           b + ∑ u in Finset.range n, (if u = v then 0 else g2 u)) := by
  intro n
  induction n with
  | zero => intro a b; simp
  | succ m ih =>
      intro a b
      rw [List.range_succ, List.foldl_append, List.foldl_cons, List.foldl_nil, ih a b]
      by_cases hm : m = v
      · subst hm
        simp [Finset.sum_range_succ]
      · simp [hm, Finset.sum_range_succ, add_assoc]

/-- The scalar repulsive pass as a pair of range sums. -/
theorem repulsiveDisp_eq_sum (C : ArrayCC) (k : ℚ) (v : ℕ) :
    repulsiveDisp C k v
      = ((∑ u in Finset.range C.n, (if u = v then 0 else repTermX C v u)) * cRep k,
         (∑ u in Finset.range C.n, (if u = v then 0 else repTermY C v u)) * cRep k) := by
  unfold repulsiveDisp
  rw [foldl_pair_sum (fun u => repTermX C v u) (fun u => repTermY C v u) v C.n 0 0]
  simp

/-- For component indices the SSE3 repulsive pass agrees with the scalar
repulsive pass (exact arithmetic: the different summation order and lane
split are invisible). -/
theorem sseRepDisp_eq (C : ArrayCC) (k : ℚ) (v : ℕ) (hv : v < C.n) :
    sseRepDisp C k v = repulsiveDisp C k v := by
  rw [repulsiveDisp_eq_sum]
  unfold sseRepDisp
  rw [sseRepRaw_eq (fun u => repTermX C v u) hv, sseRepRaw_eq (fun u => repTermY C v u) hv]

/-- The attractive fold preserves pointwise agreement of the displacement
buffers on component indices. -/
theorem attrFold_agree (rsqrt : ℚ → ℚ) (k : ℚ) (C : ArrayCC) :
    ∀ (es : List (ℕ × ℕ)) (d d' : ℕ → ℚ × ℚ),
      (∀ w, w < C.n → d w = d' w) →
      ∀ w, w < C.n →
        (es.foldl (fun d e =>
          let v := e.1
          let u := e.2
          let dx := C.x v - C.x u
          let dy := C.y v - C.y u
          let dist := max minDistQ (rsqrt (dx * dx + dy * dy))
          let d1 := Function.update d v ((d v).1 - dx * dist / k, (d v).2 - dy * dist / k)
          Function.update d1 u ((d1 u).1 + dx * dist / k, (d1 u).2 + dy * dist / k)) d) w
        = (es.foldl (fun d e =>
          let v := e.1
          let u := e.2
          let dx := C.x v - C.x u
          let dy := C.y v - C.y u
          let dist := max minDistQ (rsqrt (dx * dx + dy * dy))
          let d1 := Function.update d v ((d v).1 - dx * dist / k, (d v).2 - dy * dist / k)
          Function.update d1 u ((d1 u).1 + dx * dist / k, (d1 u).2 + dy * dist / k)) d') w := by
  intro es
  induction es with
  | nil => intro d d' h w hw; exact h w hw
  | cons e es ih =>
      intro d d' h w hw
      simp only [List.foldl_cons]
      apply ih
      · intro z hz
        have hdz : d z = d' z := h z hz
        by_cases hz1 : z = e.1 <;> by_cases hz2 : z = e.2
        · rw [← hz1, ← hz2]
          simp only [Function.update_same]
          rw [hdz]
        · rw [← hz1]
          rw [Function.update_noteq hz2, Function.update_noteq hz2]
          simp only [Function.update_same]
          rw [hdz]
        · rw [← hz2]
          simp only [Function.update_same]
          rw [Function.update_noteq hz1, Function.update_noteq hz1, hdz]
        · rw [Function.update_noteq hz2, Function.update_noteq hz2,
              Function.update_noteq hz1, Function.update_noteq hz1, hdz]
      · exact hw

/-- The loop body of `mainStep_sse3` computes exactly the positions of the
scalar loop body: per-iteration refinement of the vectorized path. -/
theorem sseOneStep_eq (cfg : Config) (rsqrt : ℚ → ℚ) (C : ArrayCC) (tx ty : ℚ) :
    sseOneStep cfg rsqrt C tx ty = (oneStep cfg rsqrt C tx ty).1 := by
  unfold sseOneStep oneStep
  dsimp only
  have hagree : ∀ w, w < C.n →
      attrPass rsqrt cfg.idealEdgeLength C (fun v => sseRepDisp C cfg.idealEdgeLength v) w
        = attrPass rsqrt cfg.idealEdgeLength C (fun v => repulsiveDisp C cfg.idealEdgeLength v) w := by
    intro w hw
    unfold attrPass
    exact attrFold_agree rsqrt cfg.idealEdgeLength C C.edges _ _
      (fun z hz => sseRepDisp_eq C cfg.idealEdgeLength z hz) w hw
  apply ArrayCC.ext <;> try rfl
  · funext v
    by_cases hv : v < C.n
    · simp only [if_pos hv, hagree v hv]
    · simp only [if_neg hv]
  · funext v
    by_cases hv : v < C.n
    · simp only [if_pos hv, hagree v hv]
    · simp only [if_neg hv]

/-! ### Bounding box folds -/

/-- Unfolding the bounding-box minimum by one index. -/
theorem foldMin_succ (g : ℕ → ℚ) (n : ℕ) :
    foldMin g (n + 1) = min (foldMin g n) (g n) := by
  unfold foldMin
  rw [List.range_succ, List.foldl_append, List.foldl_cons, List.foldl_nil]

/-- Unfolding the bounding-box maximum by one index. -/
theorem foldMax_succ (g : ℕ → ℚ) (n : ℕ) :
    foldMax g (n + 1) = max (foldMax g n) (g n) := by
  unfold foldMax
  rw [List.range_succ, List.foldl_append, List.foldl_cons, List.foldl_nil]

/-- The bounding-box minimum is a lower bound of the component positions. -/
theorem foldMin_le (g : ℕ → ℚ) : ∀ (n : ℕ) (v : ℕ), v < n → foldMin g n ≤ g v := by
  intro n
  induction n with
  | zero => intro v hv; omega
  | succ m ih =>
      intro v hv
      rw [foldMin_succ]
      rcases Nat.lt_succ_iff_lt_or_eq.mp hv with h | h
      · exact le_trans (min_le_left _ _) (ih v h)
      · rw [h]; exact min_le_right _ _

/-- The bounding-box maximum is an upper bound of the component positions. -/
theorem le_foldMax (g : ℕ → ℚ) : ∀ (n : ℕ) (v : ℕ), v < n → g v ≤ foldMax g n := by
  intro n
  induction n with
  | zero => intro v hv; omega
  | succ m ih =>
      intro v hv
      rw [foldMax_succ]
      rcases Nat.lt_succ_iff_lt_or_eq.mp hv with h | h
      · exact le_trans (ih v h) (le_max_left _ _)
      · rw [h]; exact le_max_right _ _

/-- The bounding-box minimum is attained at some component index. -/
theorem foldMin_attained (g : ℕ → ℚ) : ∀ (n : ℕ), 1 ≤ n → ∃ v, v < n ∧ foldMin g n = g v := by
  intro n
  induction n with
  | zero => intro h; omega
  | succ m ih =>
      intro _
      by_cases hm : 1 ≤ m
      · obtain ⟨v, hv, hfv⟩ := ih hm
        rw [foldMin_succ]
        rcases le_total (foldMin g m) (g m) with h | h
        · exact ⟨v, by omega, by rw [min_eq_left h, hfv]⟩
        · exact ⟨m, by omega, min_eq_right h⟩
      · have hm0 : m = 0 := by omega
        subst hm0
        refine ⟨0, by omega, ?_⟩
        rw [foldMin_succ]
        show min (foldMin g 0) (g 0) = g 0
        unfold foldMin
        simp

/-- The bounding-box maximum is attained at some component index. -/
theorem foldMax_attained (g : ℕ → ℚ) : ∀ (n : ℕ), 1 ≤ n → ∃ v, v < n ∧ foldMax g n = g v := by
  intro n
  induction n with
  | zero => intro h; omega
  | succ m ih =>
      intro _
      by_cases hm : 1 ≤ m
      · obtain ⟨v, hv, hfv⟩ := ih hm
        rw [foldMax_succ]
        rcases le_total (g m) (foldMax g m) with h | h
        · exact ⟨v, by omega, by rw [max_eq_left h, hfv]⟩
        · exact ⟨m, by omega, max_eq_right h⟩
      · have hm0 : m = 0 := by omega
        subst hm0
        refine ⟨0, by omega, ?_⟩
        rw [foldMax_succ]
        show max (foldMax g 0) (g 0) = g 0
        unfold foldMax
        simp

/-! ### The cooling trajectory -/

/-- The temperature trajectory the engine actually runs: repeated `cool`
calls starting from the initializer's temperatures with `cF = 1` (the values
`(tx, ty, cF)` hold after `m` calls). -/
def coolTraj (cfg : Config) (txN tyN : ℚ) : ℕ → ℚ × ℚ × ℕ
  | 0 => (txN, tyN, 1)
  | m + 1 =>
      let s := coolTraj cfg txN tyN m
      cool cfg txN tyN s.1 s.2.1 s.2.2

/-- Closed form of one Logarithmic-mode temperature after `m` calls. -/
def logTemp (t : ℚ) (m : ℕ) : ℚ :=
  if m ≤ 1 then t else t / (Nat.log 2 m : ℚ)

/-- Closed form of the Logarithmic cooling trajectory. -/
theorem coolTraj_log (cfg : Config) (txN tyN : ℚ)
    (hmode : cfg.coolingFunction = CoolingFunction.Logarithmic) :
    ∀ m, coolTraj cfg txN tyN m = (logTemp txN m, logTemp tyN m, m + 1) := by
  intro m
  induction m with
  | zero => simp [coolTraj, logTemp]
  | succ k ih =>
      show cool cfg txN tyN (coolTraj cfg txN tyN k).1 (coolTraj cfg txN tyN k).2.1
             (coolTraj cfg txN tyN k).2.2 = _
      rw [ih]
      unfold cool
      rw [hmode]
      by_cases hk : k = 0
      · subst hk
        have h1 : mylog2 1 = 0 := by norm_num [mylog2]
        simp [h1, logTemp]
      · have hk2 : 2 ≤ k + 1 := by omega
        have hpos : 0 < Nat.log 2 (k + 1) := Nat.log_pos (by norm_num) hk2
        have hne : mylog2 (k + 1) ≠ 0 := by
          unfold mylog2
          exact_mod_cast Nat.cast_ne_zero.mpr (by omega)
        simp only [if_pos hne]
        have hlt : ¬(k + 1 ≤ 1) := by omega
        simp [logTemp, hlt, mylog2]

/-- In Factor mode the trajectory temperatures stay nonnegative whenever the
factors and the initial temperatures are nonnegative. -/
theorem coolTraj_factor_nonneg (cfg : Config) (txN tyN : ℚ)
    (hmode : cfg.coolingFunction = CoolingFunction.Factor)
    (hfx : 0 ≤ cfg.coolFactor_x) (hfy : 0 ≤ cfg.coolFactor_y)
    (hx : 0 ≤ txN) (hy : 0 ≤ tyN) :
    ∀ m, 0 ≤ (coolTraj cfg txN tyN m).1 ∧ 0 ≤ (coolTraj cfg txN tyN m).2.1 := by
  intro m
  induction m with
  | zero => exact ⟨hx, hy⟩
  | succ k ih =>
      show 0 ≤ (cool cfg txN tyN _ _ _).1 ∧ 0 ≤ (cool cfg txN tyN _ _ _).2.1
      unfold cool
      rw [hmode]
      exact ⟨mul_nonneg ih.1 hfx, mul_nonneg ih.2 hfy⟩

/-! ### The compact edge array of `initCC` -/

/-- `mapNodeOf` maps members to valid compact indices. -/
theorem mapNodeOf_lt_length : ∀ (ns : List ℕ) (w : ℕ), w ∈ ns → mapNodeOf ns w < ns.length := by
  intro ns
  induction ns with
  | nil => intro w hw; cases hw
  | cons v rest ih =>
      intro w hw
      unfold mapNodeOf
      by_cases hvw : v = w
      · simp [hvw]
      · have : w ∈ rest := by
          rcases List.mem_cons.mp hw with h | h
          · exact absurd h.symm hvw
          · exact h
        simp only [if_neg hvw, List.length_cons]
        exact Nat.succ_lt_succ (ih w this)

/-- Compact indices map back into the component's node set. -/
theorem originalHandle_mem : ∀ (ns : List ℕ) (j : ℕ), j < ns.length → originalHandle ns j ∈ ns := by
  intro ns
  induction ns with
  | nil => intro j hj; simp at hj
  | cons v rest ih =>
      intro j hj
      cases j with
      | zero => exact List.mem_cons_self v rest
      | succ i =>
          have : i < rest.length := by simpa using hj
          exact List.mem_cons_of_mem v (ih i this)

/-- On a duplicate-free node list, `mapNodeOf` inverts `originalHandle`. -/
theorem mapNodeOf_originalHandle :
    ∀ (ns : List ℕ), ns.Nodup → ∀ (j : ℕ), j < ns.length →
      mapNodeOf ns (originalHandle ns j) = j := by
  intro ns
  induction ns with
  | nil => intro _ j hj; simp at hj
  | cons v rest ih =>
      intro hnd j hj
      obtain ⟨hv, hrest⟩ := List.nodup_cons.mp hnd
      cases j with
      | zero => simp [originalHandle, mapNodeOf]
      | succ i =>
          have hi : i < rest.length := by simpa using hj
          have hmem : originalHandle rest i ∈ rest := originalHandle_mem rest i hi
          have hne : v ≠ originalHandle rest i := fun h => hv (h ▸ hmem)
          show mapNodeOf (v :: rest) (originalHandle rest i) = i + 1
          unfold mapNodeOf
          rw [if_neg hne, ih hrest i hi]

/-- `originalHandle` inverts `mapNodeOf` on members. -/
theorem originalHandle_mapNodeOf :
    ∀ (ns : List ℕ) (w : ℕ), w ∈ ns → originalHandle ns (mapNodeOf ns w) = w := by
  intro ns
  induction ns with
  | nil => intro w hw; cases hw
  | cons v rest ih =>
      intro w hw
      unfold mapNodeOf
      by_cases hvw : v = w
      · simp [hvw, originalHandle]
      · have : w ∈ rest := by
          rcases List.mem_cons.mp hw with h | h
          · exact absurd h.symm hvw
          · exact h
        simp only [if_neg hvw]
        show originalHandle (v :: rest) (mapNodeOf rest w + 1) = w
        unfold originalHandle
        exact ih w this

/-- With no edges there are no adjacency entries. -/
theorem edgesCCAux_nil_es (m : ℕ → ℕ) : ∀ (ns : List ℕ) (s : ℕ), edgesCCAux [] m ns s = [] := by
  intro ns
  induction ns with
  | nil => intro s; rfl
  | cons v rest ih =>
      intro s
      show ((adjOf [] v).filter _).map _ ++ edgesCCAux [] m rest (s + 1) = []
      rw [ih (s + 1)]
      rfl

/-- Stored entries split edge-by-edge (as multisets): prepending one edge to
the component's edge list adds exactly that edge's stored entries. -/
theorem edgesCCAux_es_cons (e : ℕ × ℕ) (es : List (ℕ × ℕ)) (m : ℕ → ℕ) :
    ∀ (ns : List ℕ) (s : ℕ),
      (edgesCCAux (e :: es) m ns s : Multiset (ℕ × ℕ))
        = (edgesCCAux [e] m ns s : Multiset (ℕ × ℕ)) + (edgesCCAux es m ns s : Multiset (ℕ × ℕ)) := by
  intro ns
  induction ns with
  | nil => intro s; rfl
  | cons v rest ih =>
      intro s
      have hdef : ∀ (fs : List (ℕ × ℕ)) (t : ℕ), edgesCCAux fs m (v :: rest) t
          = ((adjOf fs v).filter (fun w => v < w)).map (fun w => (t, m w))
            ++ edgesCCAux fs m rest (t + 1) := fun fs t => rfl
      have hadj : adjOf (e :: es) v
          = ((if e.1 = v then [e.2] else []) ++ ((if e.2 = v then [e.1] else []) ++ []))
            ++ adjOf es v := by
        show (if e.1 = v then [e.2] else []) ++ ((if e.2 = v then [e.1] else []) ++ adjOf es v) = _
        simp
      have hadj1 : adjOf [e] v
          = (if e.1 = v then [e.2] else []) ++ ((if e.2 = v then [e.1] else []) ++ []) := rfl
      rw [hdef (e :: es) s, hdef [e] s, hdef es s, hadj, hadj1]
      simp only [List.filter_append, List.map_append, List.filter_nil, List.map_nil,
        List.append_nil, List.nil_append]
      simp only [← Multiset.coe_add]
      rw [ih (s + 1)]
      abel

/-- A single edge whose smaller endpoint is absent from the node list stores
nothing. -/
theorem edgesCCAux_single_none (a b : ℕ) (hab : a < b) (m : ℕ → ℕ) :
    ∀ (ns : List ℕ) (s : ℕ), a ∉ ns → edgesCCAux [(a, b)] m ns s = [] := by
  intro ns
  induction ns with
  | nil => intro s _; rfl
  | cons v rest ih =>
      intro s hv
      have hav : ¬(a = v) := fun h => hv (h ▸ List.mem_cons_self v rest)
      show ((adjOf [(a, b)] v).filter (fun w => v < w)).map (fun w => (s, m w))
            ++ edgesCCAux [(a, b)] m rest (s + 1) = []
      rw [ih (s + 1) (fun h => hv (List.mem_cons_of_mem v h))]
      have hadj : adjOf [(a, b)] v
          = (if a = v then [b] else []) ++ ((if b = v then [a] else []) ++ []) := rfl
      rw [hadj]
      by_cases hbv : b = v
      · subst hbv
        simp [hav, List.filter_cons, show ¬(b < a) by omega]
      · simp [hav, hbv]

/-- A single edge `(a, b)` with `a < b`, attached at the unique occurrence of
`a` in the node list, stores exactly one entry: `(srcId of a, m b)`. -/
theorem edgesCCAux_single (a b : ℕ) (hab : a < b) (m : ℕ → ℕ) :
    ∀ (ns : List ℕ) (s : ℕ), ns.Nodup → a ∈ ns →
      edgesCCAux [(a, b)] m ns s = [(s + mapNodeOf ns a, m b)] := by
  intro ns
  induction ns with
  | nil => intro s _ ha; cases ha
  | cons v rest ih =>
      intro s hnd ha
      obtain ⟨hv, hrest⟩ := List.nodup_cons.mp hnd
      show ((adjOf [(a, b)] v).filter (fun w => v < w)).map (fun w => (s, m w))
            ++ edgesCCAux [(a, b)] m rest (s + 1) = _
      have hadj : adjOf [(a, b)] v
          = (if a = v then [b] else []) ++ ((if b = v then [a] else []) ++ []) := rfl
      rw [hadj]
      by_cases hav : a = v
      · subst hav
        have hbv : ¬(b = a) := by omega
        have hnotin : a ∉ rest := hv
        rw [edgesCCAux_single_none a b hab m rest (s + 1) hnotin]
        have hmap : mapNodeOf (a :: rest) a = 0 := by
          simp [mapNodeOf]
        rw [hmap]
        simp [hbv, List.filter_cons, hab]
      · have haR : a ∈ rest := by
          rcases List.mem_cons.mp ha with h | h
          · exact absurd h hav
          · exact h
        rw [ih (s + 1) hrest haR]
        have hmap : mapNodeOf (v :: rest) a = mapNodeOf rest a + 1 := by
          simp only [mapNodeOf, if_neg (show ¬(v = a) from fun h => hav h.symm)]
        rw [hmap]
        by_cases hbv : b = v
        · subst hbv
          have hl : (if a = b then [b] else []) ++ ((if b = b then [a] else []) ++ []) = [a] := by
            simp [hav]
          rw [hl]
          have hf : List.filter (fun w => decide (b < w)) [a] = [] := by
            simp [show ¬(b < a) by omega]
          rw [hf]
          simp only [List.map_nil, List.nil_append]
          congr 2
          omega
        · simp only [if_neg hav, if_neg hbv, List.nil_append, List.append_nil,
            List.filter_nil, List.map_nil]
          congr 2
          omega

/-- Swapping the orientation of a single edge does not change the adjacency
entries it induces. -/
theorem adjOf_pair_swap (a b : ℕ) :
    ∀ v, adjOf [(a, b)] v = adjOf [(b, a)] v := by
  intro v
  show (if a = v then [b] else []) ++ ((if b = v then [a] else []) ++ [])
      = (if b = v then [a] else []) ++ ((if a = v then [b] else []) ++ [])
  by_cases hav : a = v <;> by_cases hbv : b = v <;> simp [hav, hbv]

/-- `edgesCCAux` depends on the edge list only through the induced adjacency
entries. -/
theorem edgesCCAux_congr (es es' : List (ℕ × ℕ)) (m : ℕ → ℕ)
    (h : ∀ v, adjOf es v = adjOf es' v) :
    ∀ (ns : List ℕ) (s : ℕ), edgesCCAux es m ns s = edgesCCAux es' m ns s := by
  intro ns
  induction ns with
  | nil => intro s; rfl
  | cons v rest ih =>
      intro s
      show ((adjOf es v).filter _).map _ ++ edgesCCAux es m rest (s + 1)
          = ((adjOf es' v).filter _).map _ ++ edgesCCAux es' m rest (s + 1)
      rw [h v, ih (s + 1)]

/-- `initCC` stores each undirected non-loop edge of the component exactly
once, as the pair `expectedPair` oriented from the smaller original index
(statement as a multiset identity). -/
theorem edgesCC_multiset (ns : List ℕ) (hnd : ns.Nodup) :
    ∀ (es : List (ℕ × ℕ)),
      (∀ e ∈ es, e.1 ∈ ns ∧ e.2 ∈ ns) → (∀ e ∈ es, e.1 ≠ e.2) →
      (edgesCC ns es : Multiset (ℕ × ℕ)) = ((es.map (expectedPair ns) : List (ℕ × ℕ)) : Multiset (ℕ × ℕ)) := by
  intro es
  induction es with
  | nil =>
      intro _ _
      unfold edgesCC
      rw [edgesCCAux_nil_es]
      rfl
  | cons e es ih =>
      intro hcl hnl
      unfold edgesCC
      rw [show (edgesCCAux (e :: es) (mapNodeOf ns) ns 0 : Multiset (ℕ × ℕ))
            = (edgesCCAux [e] (mapNodeOf ns) ns 0 : Multiset (ℕ × ℕ))
              + (edgesCCAux es (mapNodeOf ns) ns 0 : Multiset (ℕ × ℕ)) from
          edgesCCAux_es_cons e es (mapNodeOf ns) ns 0]
      have hIH := ih (fun e' he' => hcl e' (List.mem_cons_of_mem e he'))
        (fun e' he' => hnl e' (List.mem_cons_of_mem e he'))
      unfold edgesCC at hIH
      rw [hIH]
      have hsingle : edgesCCAux [e] (mapNodeOf ns) ns 0 = [expectedPair ns e] := by
        obtain ⟨h1, h2⟩ := hcl e (List.mem_cons_self e es)
        have hne := hnl e (List.mem_cons_self e es)
        rcases Nat.lt_or_ge e.1 e.2 with hlt | hge
        · rw [show e = (e.1, e.2) from rfl] at h1 h2 ⊢
          rw [edgesCCAux_single e.1 e.2 hlt (mapNodeOf ns) ns 0 hnd h1]
          unfold expectedPair
          rw [if_pos hlt]
          simp
        · have hlt : e.2 < e.1 := by omega
          rw [edgesCCAux_congr [e] [(e.2, e.1)] (mapNodeOf ns)
              (by
                intro v
                have := adjOf_pair_swap e.1 e.2 v
                simpa using this) ns 0]
          rw [edgesCCAux_single e.2 e.1 hlt (mapNodeOf ns) ns 0 hnd h2]
          unfold expectedPair
          rw [if_neg (by omega : ¬ e.1 < e.2)]
          simp
      rw [hsingle]
      show ({expectedPair ns e} : Multiset (ℕ × ℕ)) + _ = _
      simp

/-! ### Frame lemmas for `call` -/

/-- The per-component loop of `call` never touches the bend points. -/
theorem foldl_callStep_bends (cfg : Config) (rsqrt : ℚ → ℚ) (hs : Bool) :
    ∀ (ccs : List CCInput) (acc : GAttr × List (ℚ × ℚ)),
      ((ccs.foldl (callStep cfg rsqrt hs) acc).1).bends = (acc.1).bends := by
  intro ccs
  induction ccs with
  | nil => intro acc; rfl
  | cons cc ccs ih =>
      intro acc
      rw [List.foldl_cons, ih]
      rfl

/-- The offset-application loop of `call` never touches the bend points. -/
theorem applyOffsets_bends (ccs : List CCInput) (offs : List (ℚ × ℚ)) :
    ∀ (ga : GAttr), (applyOffsets ga ccs offs).bends = ga.bends := by
  unfold applyOffsets
  generalize ccs.zip offs = l
  induction l with
  | nil => intro ga; rfl
  | cons p l ih =>
      intro ga
      rw [List.foldl_cons, ih]

/-! ### Concrete instances used by witnesses and counterexamples -/

/-- A Factor-mode configuration with ideal edge length 2. -/
def cfgC1 : Config :=
  { iterations := 1000
    coolingFunction := CoolingFunction.Factor
    coolFactor_x := 9 / 10
    coolFactor_y := 9 / 10
    idealEdgeLength := 2
    minDistCC := 0
    pageRatio := 1
    useNodeWeight := false
    checkConvergence := true
    convTolerance := 1 / 100 }

/-- A singleton component at position `(5, 7)`. -/
def ccC1 : ArrayCC :=
  { n := 1
    x := fun _ => 5
    y := fun _ => 7
    nodeWeight := fun _ => 1
    edges := [] }

/-! ### Claim C1 -/

/-- Claim C1 counterexample: for the singleton component at `(5, 7)` the
position the orchestrator writes back is the inherited `5`, while the
rescaled output of the Layout Initializer would be `0` (the initializer
translates a singleton to the origin); the two differ, so the written-back
position does not equal the initializer's rescaled output. -/
theorem C1_counterexample :
    (processCC cfgC1 Rat.sqrt false ccC1).x 0 = 5 ∧
    ((initLayout Rat.sqrt cfgC1.idealEdgeLength ccC1).1).x 0 = 0 ∧
    (processCC cfgC1 Rat.sqrt false ccC1).x 0
      ≠ ((initLayout Rat.sqrt cfgC1.idealEdgeLength ccC1).1).x 0 := by
  have h1 : (processCC cfgC1 Rat.sqrt false ccC1).x 0 = 5 := by
    unfold processCC
    rw [if_neg (by norm_num [ccC1])]
    rfl
  have h2 : ((initLayout Rat.sqrt cfgC1.idealEdgeLength ccC1).1).x 0 = 0 := by
    unfold initLayout foldMin foldMax
    simp [ccC1, show List.range 1 = [0] from rfl]
  refine ⟨h1, h2, ?_⟩
  rw [h1, h2]
  norm_num

/-- Claim C1 (amended): a component with exactly one node skips the engine
and the initializer alike — `processCC` leaves it untouched, so the position
written back to the attribute store is the component's inherited coordinate
pair, unchanged. -/
theorem C1_singleton_keeps_inherited (cfg : Config) (rsqrt : ℚ → ℚ) (hs : Bool)
    (C : ArrayCC) (h1 : C.n = 1) : processCC cfg rsqrt hs C = C := by
  unfold processCC
  rw [if_neg (by omega)]

/-- Claim C1 witness: the amended theorem applied to the concrete singleton. -/
theorem C1_witness : ccC1.n = 1 ∧ processCC cfgC1 Rat.sqrt false ccC1 = ccC1 :=
  ⟨rfl, C1_singleton_keeps_inherited cfgC1 Rat.sqrt false ccC1 rfl⟩

/-! ### Claim C6 -/

/-- Claim C6: a zero iteration budget makes both engine paths return the
component unchanged after zero loop-body executions — the positions remain
exactly the initializer's rescaled output. -/
theorem C6_zero_budget (cfg : Config) (rsqrt : ℚ → ℚ) (txN tyN : ℚ) (C : ArrayCC)
    (h : cfg.iterations = 0) :
    mainStep cfg rsqrt txN tyN C = (C, 0) ∧ mainStep_sse3 cfg rsqrt txN tyN C = (C, 0) := by
  unfold mainStep mainStep_sse3
  rw [h]
  exact ⟨rfl, rfl⟩

/-- A zero-budget configuration. -/
def cfgC6 : Config :=
  { iterations := 0
    coolingFunction := CoolingFunction.Factor
    coolFactor_x := 9 / 10
    coolFactor_y := 9 / 10
    idealEdgeLength := 2
    minDistCC := 0
    pageRatio := 1
    useNodeWeight := false
    checkConvergence := true
    convTolerance := 1 / 100 }

/-- A two-node component for the C6 witness. -/
def ccC6 : ArrayCC :=
  { n := 2
    x := fun v => if v = 0 then 0 else 3
    y := fun _ => 0
    nodeWeight := fun _ => 1
    edges := [(0, 1)] }

/-- Claim C6 witness: the theorem applied to a concrete zero-budget run. -/
theorem C6_witness :
    cfgC6.iterations = 0 ∧
    mainStep cfgC6 Rat.sqrt 1 1 ccC6 = (ccC6, 0) ∧
    mainStep_sse3 cfgC6 Rat.sqrt 1 1 ccC6 = (ccC6, 0) :=
  ⟨rfl, (C6_zero_budget cfgC6 Rat.sqrt 1 1 ccC6 rfl).1,
    (C6_zero_budget cfgC6 Rat.sqrt 1 1 ccC6 rfl).2⟩

/-! ### Claim C2 -/

/-- Claim C2 (amended): with convergence checking enabled, a positive budget
and a first iteration in which every node stays below the threshold, the
scalar engine's loop terminates after exactly one iteration. -/
theorem C2_scalar_stops_at_one (cfg : Config) (rsqrt : ℚ → ℚ) (txN tyN : ℚ) (C : ArrayCC)
    (hcc : cfg.checkConvergence = true) (hit : 1 ≤ cfg.iterations)
    (hconv : (oneStep cfg rsqrt C txN tyN).2 = true) :
    (mainStep cfg rsqrt txN tyN C).2 = 1 := by
  obtain ⟨r, hr⟩ : ∃ r, cfg.iterations = r + 1 := ⟨cfg.iterations - 1, by omega⟩
  unfold mainStep
  rw [hr]
  simp only [mainLoop, hcc, hconv, Bool.and_self, if_pos]

/-- Configuration with budget 2 for the C2 witness. -/
def cfgC2w : Config :=
  { iterations := 2
    coolingFunction := CoolingFunction.Factor
    coolFactor_x := 9 / 10
    coolFactor_y := 9 / 10
    idealEdgeLength := 2
    minDistCC := 0
    pageRatio := 1
    useNodeWeight := false
    checkConvergence := true
    convTolerance := 1 / 100 }

/-- Two coincident nodes at `(3, 4)` joined by an edge: a component whose
initial positions already satisfy the convergence criterion (zero
displacement). -/
def ccC2w : ArrayCC :=
  { n := 2
    x := fun _ => 3
    y := fun _ => 4
    nodeWeight := fun _ => 1
    edges := [(0, 1)] }

/-- The edge set of the coincident pair stays inside the component. -/
theorem ccC2w_edges : ∀ e ∈ ccC2w.edges, e.1 < ccC2w.n ∧ e.2 < ccC2w.n := by
  intro e he
  have : e = (0, 1) := List.mem_singleton.mp he
  subst this
  exact ⟨by norm_num [ccC2w], by norm_num [ccC2w]⟩

/-- Claim C2 witness: the amended theorem applied to the coincident pair. -/
theorem C2_witness :
    cfgC2w.checkConvergence = true ∧ 1 ≤ cfgC2w.iterations ∧
    (oneStep cfgC2w Rat.sqrt ccC2w 1 1).2 = true ∧
    (mainStep cfgC2w Rat.sqrt 1 1 ccC2w).2 = 1 := by
  have hconv : (oneStep cfgC2w Rat.sqrt ccC2w 1 1).2 = true := by
    rw [oneStep_coincident cfgC2w Rat.sqrt ccC2w 1 1 (fun u _ => rfl) (fun u _ => rfl) ccC2w_edges]
  exact ⟨rfl, by norm_num [cfgC2w],
    hconv, C2_scalar_stops_at_one cfgC2w Rat.sqrt 1 1 ccC2w rfl (by norm_num [cfgC2w]) hconv⟩

/-- Configuration with budget 3 for the C2 counterexample. -/
def cfgC2x : Config :=
  { iterations := 3
    coolingFunction := CoolingFunction.Factor
    coolFactor_x := 9 / 10
    coolFactor_y := 9 / 10
    idealEdgeLength := 2
    minDistCC := 0
    pageRatio := 1
    useNodeWeight := false
    checkConvergence := true
    convTolerance := 1 / 100 }

/-- Two coincident nodes at `(1, 1)` joined by an edge. -/
def ccC2x : ArrayCC :=
  { n := 2
    x := fun _ => 1
    y := fun _ => 1
    nodeWeight := fun _ => 1
    edges := [(0, 1)] }

/-- The edge set of the `(1, 1)` pair stays inside the component. -/
theorem ccC2x_edges : ∀ e ∈ ccC2x.edges, e.1 < ccC2x.n ∧ e.2 < ccC2x.n := by
  intro e he
  have : e = (0, 1) := List.mem_singleton.mp he
  subst this
  exact ⟨by norm_num [ccC2x], by norm_num [ccC2x]⟩

/-- Claim C2 counterexample: a component that satisfies the convergence
criterion after its first iteration (with `checkConvergence` on and budget
3), yet the vectorized path `mainStep_sse3` executes all 3 iterations —
it contains no convergence check, so it does not terminate at iteration 1. -/
theorem C2_counterexample :
    cfgC2x.checkConvergence = true ∧
    (oneStep cfgC2x Rat.sqrt ccC2x 1 1).2 = true ∧
    (mainStep_sse3 cfgC2x Rat.sqrt 1 1 ccC2x).2 = 3 ∧
    (3 : ℕ) ≠ 1 := by
  refine ⟨rfl, ?_, ?_, by decide⟩
  · rw [oneStep_coincident cfgC2x Rat.sqrt ccC2x 1 1 (fun u _ => rfl) (fun u _ => rfl) ccC2x_edges]
  · exact mainStep_sse3_count cfgC2x Rat.sqrt 1 1 ccC2x

/-! ### Claim C3 -/

/-- Claim C3 (amended): in the exact-arithmetic model the vectorized loop
body computes the same repulsive pass and the same positions as the scalar
loop body for every component, iteration state and temperature (numerical
equivalence up to floating-point summation order); the convergence-decision
part of the claim fails, see the counterexample. -/
theorem C3_sse_passes_equal_scalar (cfg : Config) (rsqrt : ℚ → ℚ) (C : ArrayCC) (tx ty : ℚ) :
    (∀ v, v < C.n → sseRepDisp C cfg.idealEdgeLength v = repulsiveDisp C cfg.idealEdgeLength v)
    ∧ sseOneStep cfg rsqrt C tx ty = (oneStep cfg rsqrt C tx ty).1 :=
  ⟨fun v hv => sseRepDisp_eq C cfg.idealEdgeLength v hv, sseOneStep_eq cfg rsqrt C tx ty⟩

/-- Configuration with budget 4 for the C3 instances. -/
def cfgC3 : Config :=
  { iterations := 4
    coolingFunction := CoolingFunction.Factor
    coolFactor_x := 9 / 10
    coolFactor_y := 9 / 10
    idealEdgeLength := 2
    minDistCC := 0
    pageRatio := 1
    useNodeWeight := false
    checkConvergence := true
    convTolerance := 1 / 100 }

/-- Two coincident nodes at `(2, 3)` joined by an edge. -/
def ccC3 : ArrayCC :=
  { n := 2
    x := fun _ => 2
    y := fun _ => 3
    nodeWeight := fun _ => 1
    edges := [(0, 1)] }

/-- The edge set of the `(2, 3)` pair stays inside the component. -/
theorem ccC3_edges : ∀ e ∈ ccC3.edges, e.1 < ccC3.n ∧ e.2 < ccC3.n := by
  intro e he
  have : e = (0, 1) := List.mem_singleton.mp he
  subst this
  exact ⟨by norm_num [ccC3], by norm_num [ccC3]⟩

/-- Claim C3 witness: the pass-equivalence theorem at a concrete input. -/
theorem C3_witness :
    (∀ v, v < ccC3.n →
      sseRepDisp ccC3 cfgC3.idealEdgeLength v = repulsiveDisp ccC3 cfgC3.idealEdgeLength v)
    ∧ sseOneStep cfgC3 Rat.sqrt ccC3 1 1 = (oneStep cfgC3 Rat.sqrt ccC3 1 1).1 :=
  C3_sse_passes_equal_scalar cfgC3 Rat.sqrt ccC3 1 1

/-- Claim C3 counterexample: on a concrete scenario of the round-trip kind
(spec §8) with convergence checking enabled, the scalar path terminates
early after 1 iteration while the vectorized path executes its full budget
of 4 iterations — the two paths do not produce the same early-termination
decisions. -/
theorem C3_counterexample :
    (mainStep cfgC3 Rat.sqrt 1 1 ccC3).2 = 1 ∧
    (mainStep_sse3 cfgC3 Rat.sqrt 1 1 ccC3).2 = 4 ∧
    (1 : ℕ) ≠ 4 := by
  refine ⟨?_, mainStep_sse3_count cfgC3 Rat.sqrt 1 1 ccC3, by decide⟩
  have hconv : (oneStep cfgC3 Rat.sqrt ccC3 1 1).2 = true := by
    rw [oneStep_coincident cfgC3 Rat.sqrt ccC3 1 1 (fun u _ => rfl) (fun u _ => rfl) ccC3_edges]
  unfold mainStep
  show (mainLoop cfgC3 Rat.sqrt 1 1 (3 + 1) ccC3 1 1 1).2 = 1
  simp only [mainLoop, hconv, Bool.and_self, if_pos]
  rfl

/-! ### Claim C10 -/

/-- Claim C10: on every non-empty graph, `call` clears all edge bends right
after the empty-graph check and never writes them again: every edge of the
result has no bend points, regardless of components, packer and engine path. -/
theorem C10_call_clears_bends (cfg : Config) (rsqrt : ℚ → ℚ) (haveSSE3 : Bool)
    (packer : List (ℚ × ℚ) → ℚ → List (ℚ × ℚ)) (ccs : List CCInput) (ga : GAttr)
    (h : ga.N ≠ 0) :
    ∀ en, (call cfg rsqrt haveSSE3 packer ccs ga).bends en = [] := by
  intro en
  unfold call
  rw [if_neg h]
  rw [applyOffsets_bends, foldl_callStep_bends]
  rfl

/-- An attribute store with one node and one (bent) edge. -/
def gaC10 : GAttr :=
  { N := 1
    x := fun _ => 0
    y := fun _ => 0
    width := fun _ => 1
    height := fun _ => 1
    nodeWeight := fun _ => 1
    bends := fun _ => [(1, 1)] }

/-- Claim C10 witness: the theorem applied to a concrete attribute store
with a pre-existing bend. -/
theorem C10_witness :
    gaC10.N ≠ 0 ∧
    ∀ en, (call cfgC1 Rat.sqrt false (fun bs _ => bs)
      [{ ns := [0], es := [] }] gaC10).bends en = [] :=
  ⟨by decide,
   C10_call_clears_bends cfgC1 Rat.sqrt false (fun bs _ => bs)
     [{ ns := [0], es := [] }] gaC10 (by decide)⟩

/-! ### Claim C5 -/

/-- The Logarithmic closed-form temperature is non-increasing. -/
theorem logTemp_mono (t : ℚ) (ht : 0 ≤ t) (m : ℕ) : logTemp t (m + 1) ≤ logTemp t m := by
  unfold logTemp
  by_cases hm : m ≤ 1
  · rcases Nat.le_one_iff_eq_zero_or_eq_one.mp hm with h0 | h1
    · subst h0
      simp
    · subst h1
      rw [if_neg (by omega), if_pos (le_refl 1)]
      have hlog : Nat.log 2 2 = 1 := Nat.log_eq_one_iff'.mpr ⟨le_refl 2, by norm_num⟩
      rw [hlog]
      norm_num
  · rw [if_neg (by omega), if_neg hm]
    have hm2 : 2 ≤ m := by omega
    have hp : 0 < Nat.log 2 m := Nat.log_pos (by norm_num) hm2
    have hp' : (0 : ℚ) < (Nat.log 2 m : ℚ) := by exact_mod_cast hp
    have hmono : (Nat.log 2 m : ℚ) ≤ (Nat.log 2 (m + 1) : ℚ) := by
      exact_mod_cast Nat.log_mono_right (by omega)
    gcongr

/-- Claim C5: along the temperature trajectory the engine actually runs
(repeated `cool` from the initializer's temperatures with counter `cF = 1`),
neither temperature ever increases — in Factor mode for per-axis factors in
`(0, 1]`, and in Logarithmic mode unconditionally; moreover the first
Logarithmic call (where `mylog2 1 = 0`) leaves both temperatures unchanged. -/
theorem C5_cool_never_increases (cfg : Config) (txN tyN : ℚ)
    (hf : cfg.coolingFunction = CoolingFunction.Factor →
      0 < cfg.coolFactor_x ∧ cfg.coolFactor_x ≤ 1 ∧ 0 < cfg.coolFactor_y ∧ cfg.coolFactor_y ≤ 1)
    (hx : 0 ≤ txN) (hy : 0 ≤ tyN) :
    (∀ m, (coolTraj cfg txN tyN (m + 1)).1 ≤ (coolTraj cfg txN tyN m).1
        ∧ (coolTraj cfg txN tyN (m + 1)).2.1 ≤ (coolTraj cfg txN tyN m).2.1)
    ∧ (cfg.coolingFunction = CoolingFunction.Logarithmic →
        (coolTraj cfg txN tyN 1).1 = txN ∧ (coolTraj cfg txN tyN 1).2.1 = tyN) := by
  cases hmode : cfg.coolingFunction with
  | Factor =>
      obtain ⟨hfx0, hfx1, hfy0, hfy1⟩ := hf hmode
      constructor
      · intro m
        have hnn := coolTraj_factor_nonneg cfg txN tyN hmode
          (le_of_lt hfx0) (le_of_lt hfy0) hx hy m
        show (cool cfg txN tyN _ _ _).1 ≤ _ ∧ (cool cfg txN tyN _ _ _).2.1 ≤ _
        unfold cool
        rw [hmode]
        exact ⟨mul_le_of_le_one_right hnn.1 hfx1, mul_le_of_le_one_right hnn.2 hfy1⟩
      · intro h
        exact absurd h (by decide)
  | Logarithmic =>
      constructor
      · intro m
        rw [coolTraj_log cfg txN tyN hmode (m + 1), coolTraj_log cfg txN tyN hmode m]
        exact ⟨logTemp_mono txN hx m, logTemp_mono tyN hy m⟩
      · intro _
        rw [coolTraj_log cfg txN tyN hmode 1]
        exact ⟨by simp [logTemp], by simp [logTemp]⟩

/-- A Logarithmic-mode configuration for the C5 witness. -/
def cfgC5 : Config :=
  { iterations := 100
    coolingFunction := CoolingFunction.Logarithmic
    coolFactor_x := 9 / 10
    coolFactor_y := 9 / 10
    idealEdgeLength := 2
    minDistCC := 0
    pageRatio := 1
    useNodeWeight := false
    checkConvergence := true
    convTolerance := 1 / 100 }

/-- Claim C5 witness: the theorem applied to the Logarithmic configuration
with initial temperatures `(8, 4)`. -/
theorem C5_witness :
    (∀ m, (coolTraj cfgC5 8 4 (m + 1)).1 ≤ (coolTraj cfgC5 8 4 m).1
        ∧ (coolTraj cfgC5 8 4 (m + 1)).2.1 ≤ (coolTraj cfgC5 8 4 m).2.1)
    ∧ (cfgC5.coolingFunction = CoolingFunction.Logarithmic →
        (coolTraj cfgC5 8 4 1).1 = 8 ∧ (coolTraj cfgC5 8 4 1).2.1 = 4) :=
  C5_cool_never_increases cfgC5 8 4
    (fun h => by cases h) (by norm_num) (by norm_num)

/-! ### Claim C8 -/

/-- Claim C8 (amended): for a two-node component whose nodes start at
identical coordinates, every distance divisor of the main step is clamped to
at least `minDist > 0` resp. `minDistSquare > 0` (so no division by zero
occurs), but the displacement is identically zero: the engine leaves the
component unchanged for every budget — the nodes never separate. -/
theorem C8_coincident_nodes_frozen (cfg : Config) (rsqrt : ℚ → ℚ) (txN tyN : ℚ)
    (C : ArrayCC) (hn : C.n = 2)
    (hx1 : C.x 1 = C.x 0) (hy1 : C.y 1 = C.y 0)
    (he : ∀ e ∈ C.edges, e.1 < C.n ∧ e.2 < C.n) :
    (mainStep cfg rsqrt txN tyN C).1 = C
    ∧ 0 < minDistQ ∧ 0 < minDistSquareQ
    ∧ (∀ dx dy, minDistSquareQ ≤ repDistSq dx dy)
    ∧ (∀ d, minDistQ ≤ capDist rsqrt d) := by
  have hx : ∀ u, u < C.n → C.x u = C.x 0 := by
    intro u hu
    rw [hn] at hu
    rcases (by omega : u = 0 ∨ u = 1) with h | h
    · rw [h]
    · rw [h, hx1]
  have hy : ∀ u, u < C.n → C.y u = C.y 0 := by
    intro u hu
    rw [hn] at hu
    rcases (by omega : u = 0 ∨ u = 1) with h | h
    · rw [h]
    · rw [h, hy1]
  refine ⟨?_, by norm_num [minDistQ], by norm_num [minDistSquareQ, minDistQ],
    fun dx dy => le_max_left _ _, fun d => le_max_left _ _⟩
  unfold mainStep
  exact mainLoop_coincident cfg rsqrt txN tyN C hx hy he cfg.iterations txN tyN 1

/-- Configuration with budget 2 and convergence checking off, so that the
C8 counterexample actually runs two force iterations. -/
def cfgC8 : Config :=
  { iterations := 2
    coolingFunction := CoolingFunction.Factor
    coolFactor_x := 9 / 10
    coolFactor_y := 9 / 10
    idealEdgeLength := 2
    minDistCC := 0
    pageRatio := 1
    useNodeWeight := false
    checkConvergence := false
    convTolerance := 1 / 100 }

/-- Two nodes at identical coordinates `(1, 1)` joined by an edge. -/
def ccC8 : ArrayCC :=
  { n := 2
    x := fun _ => 1
    y := fun _ => 1
    nodeWeight := fun _ => 1
    edges := [(0, 1)] }

/-- The edge set of the C8 pair stays inside the component. -/
theorem ccC8_edges : ∀ e ∈ ccC8.edges, e.1 < ccC8.n ∧ e.2 < ccC8.n := by
  intro e he
  have : e = (0, 1) := List.mem_singleton.mp he
  subst this
  exact ⟨by norm_num [ccC8], by norm_num [ccC8]⟩

/-- Claim C8 counterexample: after a full two-iteration engine run on two
nodes initialized at identical coordinates, the two nodes still share both
coordinates — their mutual distance is `0`, it never becomes positive, so
they do not separate over iterations. -/
theorem C8_counterexample :
    (mainStep cfgC8 Rat.sqrt 1 1 ccC8).1.x 0 = (mainStep cfgC8 Rat.sqrt 1 1 ccC8).1.x 1
    ∧ (mainStep cfgC8 Rat.sqrt 1 1 ccC8).1.y 0 = (mainStep cfgC8 Rat.sqrt 1 1 ccC8).1.y 1 := by
  have h : (mainStep cfgC8 Rat.sqrt 1 1 ccC8).1 = ccC8 := by
    unfold mainStep
    exact mainLoop_coincident cfgC8 Rat.sqrt 1 1 ccC8
      (fun u _ => rfl) (fun u _ => rfl) ccC8_edges cfgC8.iterations 1 1 1
  rw [h]
  exact ⟨rfl, rfl⟩

/-- Claim C8 witness: the amended theorem applied to the concrete coincident
pair `ccC8` (all hypotheses discharged there). -/
theorem C8_witness :
    ccC8.n = 2 ∧ ccC8.x 1 = ccC8.x 0 ∧ ccC8.y 1 = ccC8.y 0 ∧
    ((mainStep cfgC8 Rat.sqrt 1 1 ccC8).1 = ccC8
    ∧ 0 < minDistQ ∧ 0 < minDistSquareQ
    ∧ (∀ dx dy, minDistSquareQ ≤ repDistSq dx dy)
    ∧ (∀ d, minDistQ ≤ capDist Rat.sqrt d)) :=
  ⟨rfl, rfl, rfl,
   C8_coincident_nodes_frozen cfgC8 Rat.sqrt 1 1 ccC8 rfl rfl rfl ccC8_edges⟩

/-! ### Claim C9 -/

/-- Claim C9: in every main-step iteration and for every node, the
displacement actually applied to the position is capped per axis by the
current temperatures: `|Δx| ≤ tx` and `|Δy| ≤ ty`.  The temperatures are
assumed nonnegative (they are `W/8, H/8 ≥ 0` initially and cooling keeps
them so), and the square-root routine is assumed to overapproximate the
true square root at the point of use (`q ≤ rsqrt q * rsqrt q`), as the real
`sqrt` does: then `dist = max(minDist, rsqrt(|disp|²)) ≥ |disp|` per axis
and `disp/dist · min(dist, t)` is bounded by `t` in absolute value. -/
theorem C9_displacement_capped (cfg : Config) (rsqrt : ℚ → ℚ) (C : ArrayCC) (tx ty : ℚ)
    (htx : 0 ≤ tx) (hty : 0 ≤ ty)
    (hs : ∀ q, 0 ≤ q → 0 ≤ rsqrt q ∧ q ≤ rsqrt q * rsqrt q) :
    ∀ v, |((oneStep cfg rsqrt C tx ty).1).x v - C.x v| ≤ tx
       ∧ |((oneStep cfg rsqrt C tx ty).1).y v - C.y v| ≤ ty := by
  have key : ∀ d : ℚ × ℚ, |(capDisp rsqrt tx ty d).1| ≤ tx ∧ |(capDisp rsqrt tx ty d).2| ≤ ty := by
    intro d
    obtain ⟨hnn, hsq⟩ := hs (d.1 * d.1 + d.2 * d.2)
      (add_nonneg (mul_self_nonneg d.1) (mul_self_nonneg d.2))
    have hdistpos : (0 : ℚ) < capDist rsqrt d :=
      lt_of_lt_of_le (by norm_num [minDistQ]) (le_max_left _ _)
    have hdistr : rsqrt (d.1 * d.1 + d.2 * d.2) ≤ capDist rsqrt d := le_max_right _ _
    have hmin0x : 0 ≤ min (capDist rsqrt d) tx := le_min (le_of_lt hdistpos) htx
    have hmin0y : 0 ≤ min (capDist rsqrt d) ty := le_min (le_of_lt hdistpos) hty
    have hd1 : d.1 ^ 2 ≤ (capDist rsqrt d) ^ 2 := by
      have h1 : d.1 * d.1 ≤ rsqrt (d.1 * d.1 + d.2 * d.2) * rsqrt (d.1 * d.1 + d.2 * d.2) := by
        nlinarith [mul_self_nonneg d.2]
      nlinarith
    have hd2 : d.2 ^ 2 ≤ (capDist rsqrt d) ^ 2 := by
      have h1 : d.2 * d.2 ≤ rsqrt (d.1 * d.1 + d.2 * d.2) * rsqrt (d.1 * d.1 + d.2 * d.2) := by
        nlinarith [mul_self_nonneg d.1]
      nlinarith
    have habs1 : |d.1| ≤ capDist rsqrt d :=
      abs_le.mpr (abs_le_of_sq_le_sq' hd1 (le_of_lt hdistpos))
    have habs2 : |d.2| ≤ capDist rsqrt d :=
      abs_le.mpr (abs_le_of_sq_le_sq' hd2 (le_of_lt hdistpos))
    constructor
    · have heq : |(capDisp rsqrt tx ty d).1|
          = |d.1| / capDist rsqrt d * min (capDist rsqrt d) tx := by
        show |d.1 / capDist rsqrt d * min (capDist rsqrt d) tx| = _
        rw [abs_mul, abs_div, abs_of_pos hdistpos, abs_of_nonneg hmin0x]
      rw [heq]
      calc |d.1| / capDist rsqrt d * min (capDist rsqrt d) tx
          ≤ 1 * min (capDist rsqrt d) tx :=
            mul_le_mul_of_nonneg_right ((div_le_one hdistpos).mpr habs1) hmin0x
        _ = min (capDist rsqrt d) tx := one_mul _
        _ ≤ tx := min_le_right _ _
    · have heq : |(capDisp rsqrt tx ty d).2|
          = |d.2| / capDist rsqrt d * min (capDist rsqrt d) ty := by
        show |d.2 / capDist rsqrt d * min (capDist rsqrt d) ty| = _
        rw [abs_mul, abs_div, abs_of_pos hdistpos, abs_of_nonneg hmin0y]
      rw [heq]
      calc |d.2| / capDist rsqrt d * min (capDist rsqrt d) ty
          ≤ 1 * min (capDist rsqrt d) ty :=
            mul_le_mul_of_nonneg_right ((div_le_one hdistpos).mpr habs2) hmin0y
        _ = min (capDist rsqrt d) ty := one_mul _
        _ ≤ ty := min_le_right _ _
  intro v
  by_cases hv : v < C.n
  · have hxv : ((oneStep cfg rsqrt C tx ty).1).x v
        = C.x v + (capDisp rsqrt tx ty
            (attrPass rsqrt cfg.idealEdgeLength C
              (fun u => repulsiveDisp C cfg.idealEdgeLength u) v)).1 := by
      show (if v < C.n then _ else _) = _
      rw [if_pos hv]
    have hyv : ((oneStep cfg rsqrt C tx ty).1).y v
        = C.y v + (capDisp rsqrt tx ty
            (attrPass rsqrt cfg.idealEdgeLength C
              (fun u => repulsiveDisp C cfg.idealEdgeLength u) v)).2 := by
      show (if v < C.n then _ else _) = _
      rw [if_pos hv]
    rw [hxv, hyv, add_sub_cancel_left, add_sub_cancel_left]
    exact key _
  · have hxv : ((oneStep cfg rsqrt C tx ty).1).x v = C.x v := by
      show (if v < C.n then _ else _) = _
      rw [if_neg hv]
    have hyv : ((oneStep cfg rsqrt C tx ty).1).y v = C.y v := by
      show (if v < C.n then _ else _) = _
      rw [if_neg hv]
    rw [hxv, hyv, sub_self, sub_self, abs_zero]
    exact ⟨htx, hty⟩

/-- Configuration for the C9 witness. -/
def cfgC9 : Config :=
  { iterations := 50
    coolingFunction := CoolingFunction.Factor
    coolFactor_x := 9 / 10
    coolFactor_y := 9 / 10
    idealEdgeLength := 2
    minDistCC := 0
    pageRatio := 1
    useNodeWeight := false
    checkConvergence := true
    convTolerance := 1 / 100 }

/-- A two-node component at `(0,0)` and `(3,4)` with one edge. -/
def ccC9 : ArrayCC :=
  { n := 2
    x := fun v => if v = 0 then 0 else 3
    y := fun v => if v = 0 then 0 else 4
    nodeWeight := fun _ => 1
    edges := [(0, 1)] }

/-- Claim C9 witness: the capping theorem applied at a concrete component
and temperatures `(1, 1)`, with the overapproximating square root
`fun q => max 1 q`. -/
theorem C9_witness :
    (0 : ℚ) ≤ 1 ∧
    (∀ q : ℚ, 0 ≤ q → 0 ≤ max 1 q ∧ q ≤ max 1 q * max 1 q) ∧
    (∀ v, |((oneStep cfgC9 (fun q => max 1 q) ccC9 1 1).1).x v - ccC9.x v| ≤ 1
        ∧ |((oneStep cfgC9 (fun q => max 1 q) ccC9 1 1).1).y v - ccC9.y v| ≤ 1) := by
  have hs : ∀ q : ℚ, 0 ≤ q → 0 ≤ max 1 q ∧ q ≤ max 1 q * max 1 q := by
    intro q hq
    refine ⟨le_trans zero_le_one (le_max_left 1 q), ?_⟩
    rcases le_total q 1 with h | h
    · nlinarith [le_max_left 1 q]
    · have hm : max 1 q = q := max_eq_right h
      rw [hm]
      nlinarith
  exact ⟨zero_le_one, hs,
    C9_displacement_capped cfgC9 (fun q => max 1 q) ccC9 1 1 zero_le_one zero_le_one hs⟩

/-! ### Claim C4 -/

/-- Claim C4: for every component with `nodeCount ≥ 1` the Layout
Initializer computes the bounding box of the current positions (the min/max
folds are bounds and are attained), and with `w = (xmax−xmin)+k`,
`h = (ymax−ymin)+k`, `ratio = h/w`, `W = sqrt(n/ratio)·k`, `H = ratio·W` it
replaces every coordinate by `((x−xmin)·W/w, (y−ymin)·H/h)` and sets the
initial temperatures to `W/8` and `H/8`. -/
theorem C4_initLayout_correct (rsqrt : ℚ → ℚ) (k : ℚ) (C : ArrayCC) (hn : 1 ≤ C.n) :
    (∀ v, v < C.n → foldMin C.x C.n ≤ C.x v ∧ C.x v ≤ foldMax C.x C.n
        ∧ foldMin C.y C.n ≤ C.y v ∧ C.y v ≤ foldMax C.y C.n)
    ∧ (∃ v, v < C.n ∧ foldMin C.x C.n = C.x v)
    ∧ (∃ v, v < C.n ∧ foldMax C.x C.n = C.x v)
    ∧ (∃ v, v < C.n ∧ foldMin C.y C.n = C.y v)
    ∧ (∃ v, v < C.n ∧ foldMax C.y C.n = C.y v)
    ∧ (∀ v, v < C.n →
        ((initLayout rsqrt k C).1).x v
          = (C.x v - foldMin C.x C.n)
            * (rsqrt ((C.n : ℚ)
                / ((foldMax C.y C.n - foldMin C.y C.n + k)
                  / (foldMax C.x C.n - foldMin C.x C.n + k))) * k
              / (foldMax C.x C.n - foldMin C.x C.n + k))
        ∧ ((initLayout rsqrt k C).1).y v
          = (C.y v - foldMin C.y C.n)
            * (((foldMax C.y C.n - foldMin C.y C.n + k)
                  / (foldMax C.x C.n - foldMin C.x C.n + k))
                * (rsqrt ((C.n : ℚ)
                  / ((foldMax C.y C.n - foldMin C.y C.n + k)
                    / (foldMax C.x C.n - foldMin C.x C.n + k))) * k)
              / (foldMax C.y C.n - foldMin C.y C.n + k)))
    ∧ (initLayout rsqrt k C).2.1
        = rsqrt ((C.n : ℚ)
            / ((foldMax C.y C.n - foldMin C.y C.n + k)
              / (foldMax C.x C.n - foldMin C.x C.n + k))) * k / 8
    ∧ (initLayout rsqrt k C).2.2
        = ((foldMax C.y C.n - foldMin C.y C.n + k)
            / (foldMax C.x C.n - foldMin C.x C.n + k))
          * (rsqrt ((C.n : ℚ)
              / ((foldMax C.y C.n - foldMin C.y C.n + k)
                / (foldMax C.x C.n - foldMin C.x C.n + k))) * k) / 8 := by
  refine ⟨fun v hv => ⟨foldMin_le C.x C.n v hv, le_foldMax C.x C.n v hv,
      foldMin_le C.y C.n v hv, le_foldMax C.y C.n v hv⟩,
    foldMin_attained C.x C.n hn, foldMax_attained C.x C.n hn,
    foldMin_attained C.y C.n hn, foldMax_attained C.y C.n hn,
    fun v hv => ⟨?_, ?_⟩, ?_, ?_⟩
  · show (if v < C.n then _ else _) = _
    rw [if_pos hv]
  · show (if v < C.n then _ else _) = _
    rw [if_pos hv]
  · rfl
  · rfl

/-- The two-node component at `(0,0)` and `(3,4)` used by the C4 witness. -/
def ccC4 : ArrayCC :=
  { n := 2
    x := fun v => if v = 0 then 0 else 3
    y := fun v => if v = 0 then 0 else 4
    nodeWeight := fun _ => 1
    edges := [(0, 1)] }

/-- Claim C4 witness: the initializer theorem at a concrete component with
`k = 2` and `Rat.sqrt`. -/
theorem C4_witness :
    1 ≤ ccC4.n ∧
    ((∀ v, v < ccC4.n → foldMin ccC4.x ccC4.n ≤ ccC4.x v ∧ ccC4.x v ≤ foldMax ccC4.x ccC4.n
        ∧ foldMin ccC4.y ccC4.n ≤ ccC4.y v ∧ ccC4.y v ≤ foldMax ccC4.y ccC4.n)
    ∧ (∃ v, v < ccC4.n ∧ foldMin ccC4.x ccC4.n = ccC4.x v)
    ∧ (∃ v, v < ccC4.n ∧ foldMax ccC4.x ccC4.n = ccC4.x v)
    ∧ (∃ v, v < ccC4.n ∧ foldMin ccC4.y ccC4.n = ccC4.y v)
    ∧ (∃ v, v < ccC4.n ∧ foldMax ccC4.y ccC4.n = ccC4.y v)
    ∧ (∀ v, v < ccC4.n →
        ((initLayout Rat.sqrt 2 ccC4).1).x v
          = (ccC4.x v - foldMin ccC4.x ccC4.n)
            * (Rat.sqrt ((ccC4.n : ℚ)
                / ((foldMax ccC4.y ccC4.n - foldMin ccC4.y ccC4.n + 2)
                  / (foldMax ccC4.x ccC4.n - foldMin ccC4.x ccC4.n + 2))) * 2
              / (foldMax ccC4.x ccC4.n - foldMin ccC4.x ccC4.n + 2))
        ∧ ((initLayout Rat.sqrt 2 ccC4).1).y v
          = (ccC4.y v - foldMin ccC4.y ccC4.n)
            * (((foldMax ccC4.y ccC4.n - foldMin ccC4.y ccC4.n + 2)
                  / (foldMax ccC4.x ccC4.n - foldMin ccC4.x ccC4.n + 2))
                * (Rat.sqrt ((ccC4.n : ℚ)
                  / ((foldMax ccC4.y ccC4.n - foldMin ccC4.y ccC4.n + 2)
                    / (foldMax ccC4.x ccC4.n - foldMin ccC4.x ccC4.n + 2))) * 2)
              / (foldMax ccC4.y ccC4.n - foldMin ccC4.y ccC4.n + 2)))
    ∧ (initLayout Rat.sqrt 2 ccC4).2.1
        = Rat.sqrt ((ccC4.n : ℚ)
            / ((foldMax ccC4.y ccC4.n - foldMin ccC4.y ccC4.n + 2)
              / (foldMax ccC4.x ccC4.n - foldMin ccC4.x ccC4.n + 2))) * 2 / 8
    ∧ (initLayout Rat.sqrt 2 ccC4).2.2
        = ((foldMax ccC4.y ccC4.n - foldMin ccC4.y ccC4.n + 2)
            / (foldMax ccC4.x ccC4.n - foldMin ccC4.x ccC4.n + 2))
          * (Rat.sqrt ((ccC4.n : ℚ)
              / ((foldMax ccC4.y ccC4.n - foldMin ccC4.y ccC4.n + 2)
                / (foldMax ccC4.x ccC4.n - foldMin ccC4.x ccC4.n + 2))) * 2) / 8) :=
  ⟨by norm_num [ccC4], C4_initLayout_correct Rat.sqrt 2 ccC4 (by norm_num [ccC4])⟩

/-! ### Claim C7 -/

/-- Claim C7: for a component built by `initCC` from a duplicate-free node
list and a closed, loop-free edge list: (1) each undirected edge is stored
exactly once, namely as the compact pair oriented from the endpoint whose
original index is smaller (multiset identity); (2) every stored pair
consists of valid compact indices below `nodeCount`; (3) `originalHandle`
is a bijection between `[0, nodeCount)` and the component's node set. -/
theorem C7_initCC_invariants (ns : List ℕ) (es : List (ℕ × ℕ))
    (hnd : ns.Nodup)
    (hcl : ∀ e ∈ es, e.1 ∈ ns ∧ e.2 ∈ ns)
    (hnl : ∀ e ∈ es, e.1 ≠ e.2) :
    (edgesCC ns es : Multiset (ℕ × ℕ))
        = ((es.map (expectedPair ns) : List (ℕ × ℕ)) : Multiset (ℕ × ℕ))
    ∧ (∀ p ∈ edgesCC ns es, p.1 < ns.length ∧ p.2 < ns.length)
    ∧ (∀ j, j < ns.length → originalHandle ns j ∈ ns)
    ∧ (∀ j1, j1 < ns.length → ∀ j2, j2 < ns.length →
        originalHandle ns j1 = originalHandle ns j2 → j1 = j2)
    ∧ (∀ w ∈ ns, ∃ j, j < ns.length ∧ originalHandle ns j = w) := by
  have hmul := edgesCC_multiset ns hnd es hcl hnl
  refine ⟨hmul, ?_, originalHandle_mem ns, ?_, ?_⟩
  · intro p hp
    have hpm : p ∈ (edgesCC ns es : Multiset (ℕ × ℕ)) := by
      exact_mod_cast hp
    rw [hmul] at hpm
    have hpl : p ∈ es.map (expectedPair ns) := by
      exact_mod_cast hpm
    obtain ⟨e, he, hpe⟩ := List.mem_map.mp hpl
    obtain ⟨h1, h2⟩ := hcl e he
    subst hpe
    unfold expectedPair
    by_cases hlt : e.1 < e.2
    · rw [if_pos hlt]
      exact ⟨mapNodeOf_lt_length ns e.1 h1, mapNodeOf_lt_length ns e.2 h2⟩
    · rw [if_neg hlt]
      exact ⟨mapNodeOf_lt_length ns e.2 h2, mapNodeOf_lt_length ns e.1 h1⟩
  · intro j1 h1 j2 h2 heq
    have hj1 := mapNodeOf_originalHandle ns hnd j1 h1
    rw [heq] at hj1
    rw [mapNodeOf_originalHandle ns hnd j2 h2] at hj1
    omega
  · intro w hw
    exact ⟨mapNodeOf ns w, mapNodeOf_lt_length ns w hw, originalHandle_mapNodeOf ns w hw⟩

/-- Claim C7 witness: the invariants at the concrete component with nodes
`[5, 2, 9]` and edges `{5,2}` and `{9,2}`; the stored compact array
evaluates to `[(1, 0), (1, 2)]` (both edges attached at node `2`). -/
theorem C7_witness :
    ([5, 2, 9] : List ℕ).Nodup ∧
    (∀ e ∈ [((5 : ℕ), (2 : ℕ)), (9, 2)], e.1 ∈ ([5, 2, 9] : List ℕ) ∧ e.2 ∈ ([5, 2, 9] : List ℕ)) ∧
    (∀ e ∈ [((5 : ℕ), (2 : ℕ)), (9, 2)], e.1 ≠ e.2) ∧
    edgesCC [5, 2, 9] [(5, 2), (9, 2)] = [(1, 0), (1, 2)] ∧
    ((edgesCC [5, 2, 9] [(5, 2), (9, 2)] : Multiset (ℕ × ℕ))
        = (([(5, 2), (9, 2)].map (expectedPair [5, 2, 9]) : List (ℕ × ℕ)) : Multiset (ℕ × ℕ))
    ∧ (∀ p ∈ edgesCC [5, 2, 9] [(5, 2), (9, 2)],
        p.1 < ([5, 2, 9] : List ℕ).length ∧ p.2 < ([5, 2, 9] : List ℕ).length)
    ∧ (∀ j, j < ([5, 2, 9] : List ℕ).length → originalHandle [5, 2, 9] j ∈ ([5, 2, 9] : List ℕ))
    ∧ (∀ j1, j1 < ([5, 2, 9] : List ℕ).length → ∀ j2, j2 < ([5, 2, 9] : List ℕ).length →
        originalHandle [5, 2, 9] j1 = originalHandle [5, 2, 9] j2 → j1 = j2)
    ∧ (∀ w ∈ ([5, 2, 9] : List ℕ), ∃ j, j < ([5, 2, 9] : List ℕ).length
        ∧ originalHandle [5, 2, 9] j = w)) :=
  ⟨by decide, by decide, by decide, by decide,
   C7_initCC_invariants [5, 2, 9] [(5, 2), (9, 2)] (by decide) (by decide) (by decide)⟩

end SpringFR
